import Mathlib

/-!
Verification development for the sitemap-generator service
(`server.js` / `security.js`): a shallow embedding of its crawl engine,
URL normalizer, link filters, robots.txt parser, sitemap renderer and
request validation, together with theorems about the behaviours the
specification describes.

Modelling conventions (each noted again at the definition it concerns):
* JavaScript `URL` objects are modelled by the structure `Url` below; the
  string-to-`Url` parser (`new URL(...)`) is not embedded, so functions that
  in the source receive URL strings receive parsed `Url` values here.
* JavaScript strings are Lean `String`s.  The handful of string builtins the
  source uses (`trim`, `split`, `toLowerCase`, `startsWith`, `join`) are
  given explicit executable definitions over `String.data` so that concrete
  runs evaluate inside the kernel.
* `Set` objects are modelled as insertion-ordered duplicate-free lists, and
  `Map` objects as association lists; all additions in the source are
  guarded exactly as the sets/maps guard them.
* The sha256 content hash is modelled injectively: the fingerprint table is
  keyed directly by the page body, which identifies bodies byte-for-byte
  exactly as the collision-free intent of the hash does.
* Network effects (`axios.get`) are modelled by an oracle
  `web : Url → FetchOutcome` supplied to the crawler, and the parsed
  robots.txt policy (whose fetch is also a network effect) is supplied as a
  parameter; the pure robots.txt text parser is embedded separately.
-/

/-- Whitespace test used by the `trim` model (space, tab, CR, LF — the
whitespace actually occurring in HTTP/robots text). -/
def isWsChar (c : Char) : Bool :=
  c = ' ' || c = '\t' || c = '\r' || c = '\n'

/-- Model of JavaScript `String.prototype.trim`. -/
def trimStr (s : String) : String :=
  ⟨((s.data.dropWhile isWsChar).reverse.dropWhile isWsChar).reverse⟩

/-- Model of JavaScript `String.prototype.toLowerCase` (ASCII case folding,
which is all that scheme/host/agent names exercise). -/
def strLower (s : String) : String :=
  ⟨s.data.map Char.toLower⟩

/-- Split a character list at every occurrence of `sep`, like the JavaScript
single-character `String.prototype.split`. -/
def splitOnChar (sep : Char) : List Char → List (List Char)
  | [] => [[]]
  | c :: rest =>
    let r := splitOnChar sep rest
    if c = sep then [] :: r
    else
      match r with
      | [] => [[c]]
      | h :: t => (c :: h) :: t

/-- Model of JavaScript `Array.prototype.join(sep)`. -/
def joinSep (sep : String) : List String → String
  | [] => ""
  | x :: xs => xs.foldl (fun acc y => acc ++ sep ++ y) x

/-- Model of JavaScript `Set.prototype.add` on an insertion-ordered
duplicate-free list. -/
def setAdd (s : List String) (x : String) : List String :=
  if x ∈ s then s else s ++ [x]

/-- Model of JavaScript `String.prototype.startsWith`. -/
def strStartsWith (s pre : String) : Bool :=
  pre.data.isPrefixOf s.data

/-- A parsed URL, mirroring the fields of a JavaScript `URL` object that the
source reads or writes: `protocol` (with its trailing colon), `hostname`,
`port` (empty string when absent), `pathname`, the `searchParams` entries in
order, and the fragment (`hash` without its leading `#`). -/
structure Url where
  scheme : String
  host : String
  port : String
  path : String
  query : List (String × String)
  fragment : String
deriving DecidableEq

/-- The fixed tracking-parameter keys removed by `normalizeUrl`
(server.js:125). -/
def trackingKeys : List String :=
  ["fbclid", "gclid", "utm_source", "utm_medium", "utm_campaign",
   "utm_term", "utm_content"]

/-- Lexicographic at-most comparison on character lists, the model of a
`localeCompare`-nonpositive comparison result.  No claim depends on which
total order the runtime collation realises, only on it being a total order
used by a stable sort. -/
def charListLe : List Char → List Char → Bool
  | [], _ => true
  | _ :: _, [] => false
  | a :: as, b :: bs => if a = b then charListLe as bs else decide (a < b)

/-- Key order used to sort query parameters (server.js:129), comparing only
the keys so that the stable sort preserves the relative order of
duplicate-key parameters exactly as the JavaScript sort does. -/
def keyLe (a b : String × String) : Prop := charListLe a.1.data b.1.data = true

instance : DecidableRel keyLe := fun a b =>
  inferInstanceAs (Decidable (charListLe a.1.data b.1.data = true))

/-- `charListLe` is total. -/
theorem charListLe_total : ∀ a b : List Char, charListLe a b = true ∨ charListLe b a = true := by
  intro a
  induction a with
  | nil => intro b; left; rfl
  | cons x xs ih =>
    intro b
    cases b with
    | nil => right; rfl
    | cons y ys =>
      by_cases hxy : x = y
      · subst hxy
        rcases ih ys with h | h
        · left; simpa [charListLe] using h
        · right; simpa [charListLe] using h
      · rcases lt_or_gt_of_ne hxy with h | h
        · left; simp [charListLe, hxy, h]
        · right
          have hyx : y ≠ x := fun e => hxy e.symm
          simp [charListLe, hyx, h]

/-- `charListLe` is transitive. -/
theorem charListLe_trans : ∀ a b c : List Char,
    charListLe a b = true → charListLe b c = true → charListLe a c = true := by
  intro a
  induction a with
  | nil => intro b c _ _; rfl
  | cons x xs ih =>
    intro b c hab hbc
    cases b with
    | nil => simp [charListLe] at hab
    | cons y ys =>
      cases c with
      | nil => simp [charListLe] at hbc
      | cons z zs =>
        by_cases hxy : x = y <;> by_cases hyz : y = z
        · subst hxy; subst hyz
          simp only [charListLe, if_pos rfl] at hab hbc ⊢
          exact ih ys zs hab hbc
        · subst hxy
          simpa [charListLe, hyz] using hbc
        · subst hyz
          simpa [charListLe, hxy] using hab
        · simp only [charListLe, if_neg hxy] at hab
          simp only [charListLe, if_neg hyz] at hbc
          have h1 : x < y := of_decide_eq_true hab
          have h2 : y < z := of_decide_eq_true hbc
          have hxz : x < z := lt_trans h1 h2
          have hne : x ≠ z := ne_of_lt hxz
          simp [charListLe, hne, hxz]

/-- Mutual `charListLe` forces equality (antisymmetry). -/
theorem charListLe_antisymm : ∀ a b : List Char,
    charListLe a b = true → charListLe b a = true → a = b := by
  intro a
  induction a with
  | nil => intro b _ hba; cases b with
    | nil => rfl
    | cons y ys => simp [charListLe] at hba
  | cons x xs ih =>
    intro b hab hba
    cases b with
    | nil => simp [charListLe] at hab
    | cons y ys =>
      by_cases hxy : x = y
      · subst hxy
        simp only [charListLe, if_pos rfl] at hab hba
        rw [ih ys hab hba]
      · simp only [charListLe, if_neg hxy] at hab
        have hyx : y ≠ x := fun e => hxy e.symm
        simp only [charListLe, if_neg hyx] at hba
        exact absurd (lt_trans (of_decide_eq_true hab) (of_decide_eq_true hba))
          (lt_irrefl x)

instance : IsTotal (String × String) keyLe :=
  ⟨fun a b => charListLe_total a.1.data b.1.data⟩

instance : IsTrans (String × String) keyLe :=
  ⟨fun _ _ _ h1 h2 => charListLe_trans _ _ _ h1 h2⟩

/-- Collapse runs of consecutive slashes to a single slash, the effect of
`pathname.replace` with a one-or-more-slashes pattern (server.js:134). -/
def collapseSlashes : List Char → List Char
  | [] => []
  | [c] => [c]
  | a :: b :: rest =>
    if a = '/' ∧ b = '/' then collapseSlashes (b :: rest)
    else a :: collapseSlashes (b :: rest)

/-- Drop a single trailing slash unless the path has length ≤ 1
(server.js:135). -/
def stripTrailingSlash (l : List Char) : List Char :=
  if 1 < l.length ∧ l.getLast? = some '/' then l.dropLast else l

/-- The structural part of `normalizeUrl` (server.js:110-137): drop the
fragment, lowercase scheme and host, drop an explicit default port, remove
tracking query parameters, stably sort the remaining parameters by key, and
normalize the path.  Parse failure (the `catch` returning null) cannot occur
on an already-parsed `Url`. -/
def normCore (u : Url) : Url :=
  let scheme := strLower u.scheme
  let host := strLower u.host
  let port :=
    if (scheme = "http:" ∧ u.port = "80") ∨ (scheme = "https:" ∧ u.port = "443")
    then "" else u.port
  let query :=
    List.insertionSort keyLe (u.query.filter (fun kv => !(trackingKeys.contains kv.1)))
  let path : String := ⟨stripTrailingSlash (collapseSlashes u.path.data)⟩
  { scheme := scheme, host := host, port := port, path := path,
    query := query, fragment := "" }

/-- Serialization of the query parameters as `URL.search` renders them (an
empty string when there are no parameters, otherwise a question mark and
ampersand-joined pairs; percent-encoding is not modelled — no claim's input
needs escaping). -/
def searchString (q : List (String × String)) : String :=
  match q with
  | [] => ""
  | _ => "?" ++ joinSep "&" (q.map fun kv => kv.1 ++ "=" ++ kv.2)

/-- Serialization mirroring `URL.prototype.toString` for the fields the
model carries. -/
def urlToString (u : Url) : String :=
  u.scheme ++ "//" ++ u.host ++ (if u.port = "" then "" else ":" ++ u.port)
    ++ u.path ++ searchString u.query
    ++ (if u.fragment = "" then "" else "#" ++ u.fragment)

/-- `normalizeUrl` (server.js:110-141): normalize a parsed URL and return
its canonical string form. -/
def normalizeUrl (u : Url) : String :=
  urlToString (normCore u)

/-- `isInternalLink` (server.js:144-151): hostname equality with the crawl's
start host.  The `catch` branch (unparseable link) cannot arise for a parsed
`Url`. -/
def isInternalLink (u : Url) (startHost : String) : Bool :=
  u.host = startHost

/-- The resource extensions of the `isSkippableResource` pattern
(server.js:171); the optional-digit alternative `woff2?` is expanded into
its two matches. -/
def resourceExts : List (List Char) :=
  ["jpg", "jpeg", "png", "gif", "svg", "webp", "bmp", "pdf", "zip", "rar",
   "7z", "tar", "gz", "exe", "dmg", "iso", "mp4", "mp3", "ogg", "woff",
   "woff2", "ttf", "ico"].map String.data

/-- Does `l` start with the given (lowercase) extension followed by the end
of the input or a question mark — the `(extension)(end-or-question-mark)`
part of the resource pattern, case-insensitively. -/
def extMatchesAt : List Char → List Char → Bool
  | [], [] => true
  | [], '?' :: _ => true
  | [], _ :: _ => false
  | _ :: _, [] => false
  | e :: es, c :: cs => if c.toLower = e then extMatchesAt es cs else false

/-- Scan for a dot followed by a known resource extension followed by
end-of-input or a question mark — the regular-expression test of
`isSkippableResource` applied to `pathname + search`. -/
def skippableScan : List Char → Bool
  | [] => false
  | c :: rest =>
    if c = '.' ∧ resourceExts.any (fun e => extMatchesAt e rest) then true
    else skippableScan rest

/-- `isSkippableResource` (server.js:168-175): resource-extension test over
the path plus query string.  The `catch` branch (returning true on parse
failure) cannot arise for a parsed `Url`. -/
def isSkippableResource (u : Url) : Bool :=
  skippableScan (u.path.data ++ (searchString u.query).data)

/-- `isPathAllowed` (server.js:231-239): a path is allowed unless it starts
with some non-empty pattern of the disallow set (empty patterns are
skipped). -/
def isPathAllowed (path : String) (disallow : List String) : Bool :=
  disallow.all (fun pat => pat = "" || !(strStartsWith path pat))

/-- Split robots.txt text into trimmed lines (server.js:186): the split on
optionally-CR-terminated newlines is realised by splitting on LF, the trim
removing any remaining CR. -/
def robotsLines (text : String) : List String :=
  (splitOnChar '\n' text.data).map (fun l => trimStr ⟨l⟩)

/-- Parse one robots.txt line into its lowercased key and its value
(server.js:192-195): split on every colon, reject a missing key or an empty
remainder, rejoin the remainder with colons, and trim. -/
def parseKV (line : String) : Option (String × String) :=
  match splitOnChar ':' line.data with
  | [] => none
  | [_] => none
  | k :: rest =>
    if k = [] then none
    else some (strLower (trimStr ⟨k⟩), trimStr (joinSep ":" (rest.map fun l => ⟨l⟩)))

/-- The per-agent rule map built by the robots parser: an association list
from lowercased agent name to its ordered `Disallow` values (a JavaScript
plain object with array values). -/
abbrev AgentMap := List (String × List String)

/-- Look up an agent's rule list. -/
def mapGet (m : AgentMap) (k : String) : Option (List String) :=
  (m.find? (fun e => e.1 = k)).map (·.2)

/-- Insert an empty rule list for an agent if absent
(the `if (!agents[a]) agents[a] = []` initialisations). -/
def mapInit (m : AgentMap) (k : String) : AgentMap :=
  match mapGet m k with
  | some _ => m
  | none => m ++ [(k, [])]

/-- Append one rule to an agent's list, creating the entry when absent
(the `agents[a] = agents[a] || []; agents[a].push(value)` idiom). -/
def mapPush (m : AgentMap) (k : String) (v : String) : AgentMap :=
  match m with
  | [] => [(k, [v])]
  | e :: rest => if e.1 = k then (e.1, e.2 ++ [v]) :: rest else e :: mapPush rest k v

/-- One line of the robots parsing loop (server.js:190-211), threading the
agent map and the current agent list. -/
def robotsStep (st : AgentMap × List String) (line : String) : AgentMap × List String :=
  if line = "" ∨ strStartsWith line "#" then st
  else
    match parseKV line with
    | none => st
    | some (k, v) =>
      if k = "user-agent" then
        (mapInit st.1 (strLower v), [strLower v])
      else if k = "disallow" then
        match st.2 with
        | [] => (mapPush st.1 "*" v, [])
        | agents => (agents.foldl (fun m a => mapPush m a v) st.1, agents)
      else st

/-- The agent map accumulated over all lines (server.js:188-211). -/
def robotsAgents (lines : List String) : AgentMap :=
  (lines.foldl robotsStep ([], [])).1

/-- Rules recorded for one agent (an absent agent contributes nothing). -/
def agentRules (m : AgentMap) (k : String) : List String :=
  (mapGet m k).getD []

/-- Fold a rule list into the result set (the `forEach ... result.disallow.add`
loops, server.js:219 and 222). -/
def setAddAll (s : List String) (l : List String) : List String :=
  l.foldl setAdd s

/-- The effective disallow set computed from parsed lines
(server.js:213-225): the crawler-specific agent's rules, then the wildcard
agent's rules, accumulated into one set. -/
def parseRobotsLines (lines : List String) : List String :=
  let agents := robotsAgents lines
  setAddAll (setAddAll [] (agentRules agents "sitemap-generator")) (agentRules agents "*")

/-- The pure parsing part of `fetchRobots` (server.js:181-229): from the
fetched robots.txt text to the effective disallow set.  The network fetch
itself (and its fail-open empty-set fallback) is outside this pure model. -/
def fetchRobotsParse (text : String) : List String :=
  parseRobotsLines (robotsLines text)

/-- Outcome of fetching one URL, the oracle for `axios.get`: a response
carries its status, its body, and the outbound anchor links of the body
after resolution — `resolveLink(href, current)` applied to each `a[href]`
attribute, `none` standing for the hrefs it rejects (empty, fragment-only,
javascript/mailto/tel, unresolvable).  A thrown error (timeout, network
failure) is `err`. -/
inductive FetchOutcome where
  | ok (status : Nat) (body : String) (links : List (Option Url))
  | err
deriving DecidableEq

/-- The mutable state of one `crawlWebsite` invocation (server.js:250-268):
visited and discovered as insertion-ordered sets of normalized URL strings,
the frontier queue of parsed URLs in their pre-normalization form, and the
content-fingerprint table keyed by page body (standing for its sha256). -/
structure CrawlState where
  visited : List String
  discovered : List String
  queue : List Url
  contentHashes : List (String × String)
deriving DecidableEq

/-- Processing of one extracted link (server.js:323-338): drop unresolvable
links, keep internal non-resource links, and enqueue a link only when its
normalized form is new, recording it as discovered. -/
def linkStep (startHost : String) (acc : List String × List Url) (l : Option Url) :
    List String × List Url :=
  match l with
  | none => acc
  | some link =>
    if ¬ isInternalLink link startHost then acc
    else if isSkippableResource link then acc
    else
      let n := normalizeUrl link
      if n ∈ acc.1 then acc else (acc.1 ++ [n], acc.2 ++ [link])

/-- One iteration of the crawl loop body (server.js:271-346) on a dequeued
URL: skip it when already visited, a skippable resource,
robots-disallowed, a fetch error, a non-2xx response or duplicate content
— recording it as discovered in all but the first case — or, on a
successful unique fetch, record its fingerprint, process its links, and
mark it visited.  The null-normalization guard of the source cannot fire on
parsed `Url`s, and the robots path-check's URL re-parse succeeds
structurally. -/
def crawlIter (web : Url → FetchOutcome) (robots : List String) (startHost : String)
    (st : CrawlState) (current : Url) (rest : List Url) : CrawlState :=
  if normalizeUrl current ∈ st.visited then { st with queue := rest }
  else if isSkippableResource current then
    { st with queue := rest, discovered := setAdd st.discovered (normalizeUrl current) }
  else if ¬ isPathAllowed current.path robots then
    { st with queue := rest, discovered := setAdd st.discovered (normalizeUrl current) }
  else
    match web current with
    | FetchOutcome.err =>
      { st with queue := rest, discovered := setAdd st.discovered (normalizeUrl current) }
    | FetchOutcome.ok status body links =>
      if status < 200 ∨ 300 ≤ status then
        { st with queue := rest, discovered := setAdd st.discovered (normalizeUrl current) }
      else if (List.lookup body st.contentHashes).isSome then
        { st with queue := rest, discovered := setAdd st.discovered (normalizeUrl current) }
      else
        { visited := st.visited ++ [normalizeUrl current],
          discovered := (links.foldl (linkStep startHost) (st.discovered, rest)).1,
          queue := (links.foldl (linkStep startHost) (st.discovered, rest)).2,
          contentHashes := st.contentHashes ++ [(body, normalizeUrl current)] }

/-- The crawl loop (server.js:270-347), fuel-indexed: while the frontier is
non-empty and the visited set is below the page cap, dequeue and run one
iteration.  Exhausted fuel returns the state unchanged; every real run is
some finite fuel, and a state whose loop condition fails is a fixed point
for every fuel. -/
def crawlLoop (web : Url → FetchOutcome) (robots : List String) (startHost : String)
    (maxPages : Nat) : Nat → CrawlState → CrawlState
  | 0, st => st
  | Nat.succ fuel, st =>
    match st.queue with
    | [] => st
    | current :: rest =>
      if ¬ (st.visited.length < maxPages) then st
      else
        crawlLoop web robots startHost maxPages fuel
          (crawlIter web robots startHost st current rest)

/-- `crawlWebsite` (server.js:248-364) up to its returned state: seed the
queue with the start URL, record its normalization as discovered, and run
the loop.  The robots policy (the parsed result of the robots.txt fetch) is
supplied by the caller, as is the fetch oracle. -/
def crawlWebsite (web : Url → FetchOutcome) (robots : List String) (startUrl : Url)
    (maxPages : Nat) (fuel : Nat) : CrawlState :=
  crawlLoop web robots startUrl.host maxPages fuel
    { visited := [], discovered := setAdd [] (normalizeUrl startUrl),
      queue := [startUrl], contentHashes := [] }

/-- The crawl statistics of the result object (server.js:353-361); the
wall-clock `crawlTimeSeconds` field is not modelled. -/
structure CrawlStats where
  urlsDiscovered : Nat
  urlsInSitemap : Nat
deriving DecidableEq

/-- Stats construction from the final state: set sizes are the lengths of
the duplicate-free lists. -/
def crawlStats (st : CrawlState) : CrawlStats :=
  { urlsDiscovered := st.discovered.length, urlsInSitemap := st.visited.length }

/-- The visited array of the result object: `Array.from(visited)` with the
truthiness filter dropping empty strings (server.js:355). -/
def visitedArray (st : CrawlState) : List String :=
  st.visited.filter (fun s => !(s == ""))

/-- Per-character XML escaping (server.js:396-406): the five specials map to
their entities, everything else passes through. -/
def escChar (c : Char) : List Char :=
  if c = '<' then "&lt;".data
  else if c = '>' then "&gt;".data
  else if c = '&' then "&amp;".data
  else if c = '"' then "&quot;".data
  else if c = '\'' then "&apos;".data
  else [c]

/-- `escapeXml` (server.js:396-406). -/
def escapeXml (s : String) : String :=
  ⟨(s.data.map escChar).flatten⟩

/-- One decimal digit as a character. -/
def digitChar (d : Nat) : Char :=
  match d % 10 with
  | 0 => '0' | 1 => '1' | 2 => '2' | 3 => '3' | 4 => '4'
  | 5 => '5' | 6 => '6' | 7 => '7' | 8 => '8' | _ => '9'

/-- Decimal digits of a natural number (fuel-indexed helper). -/
def natDigitsAux : Nat → Nat → List Char
  | 0, _ => []
  | fuel + 1, n => if n < 10 then [digitChar n] else natDigitsAux fuel (n / 10) ++ [digitChar (n % 10)]

/-- Decimal digits of a natural number. -/
def natDigits (n : Nat) : List Char :=
  natDigitsAux (n + 1) n

/-- Fractional decimal digits of `num / den` (fuel-bounded long division). -/
def fracDigitsAux : Nat → Nat → Nat → List Char
  | 0, _, _ => []
  | fuel + 1, num, den =>
    if num = 0 then []
    else digitChar (num * 10 / den) :: fracDigitsAux fuel (num * 10 % den) den

/-- Decimal rendering of a JavaScript number, modelled over `Rat`: sign,
integer digits, and (when non-zero) a dot and fractional digits.  The
JavaScript engine's exact float-to-string algorithm is abstracted; every
character it can produce for a priority in [0,1] is a digit, a dot or a
minus sign, which is all any claim relies on (for 0.5 this model and the
engine both render the string 0.5). -/
def numText (q : Rat) : String :=
  let sign : List Char := if q.num < 0 then ['-'] else []
  let ip := q.num.natAbs / q.den
  let fp := q.num.natAbs % q.den
  let frac := fracDigitsAux 64 fp q.den
  ⟨sign ++ natDigits ip ++ (if frac = [] then [] else '.' :: frac)⟩

/-- The 0.5 default priority (server.js:373), written as an explicit
reduced fraction so that concrete runs evaluate without rational
normalization. -/
def halfPriority : Rat := Rat.mk' 1 2 (by norm_num) (Nat.coprime_one_left 2)

/-- The fixed XML preamble and opening urlset tag (server.js:387-388). -/
def xmlHeader : String :=
  "<?xml version=\"1.0\" encoding=\"UTF-8\"?>\n<urlset xmlns=\"http://www.sitemaps.org/schemas/sitemap/0.9\">\n"

/-- One sitemap url entry (server.js:377-385): loc always, lastmod when
`includeLastMod` holds and the date string is truthy (non-empty), changefreq
when truthy (non-empty), and priority always (it is always a number after
defaulting). -/
def sitemapEntry (includeLastMod : Bool) (today : String) (changeFreq : String)
    (priority : Rat) (loc : String) : String :=
  "  <url>\n" ++ "    <loc>" ++ escapeXml loc ++ "</loc>\n"
    ++ (if includeLastMod = true ∧ today ≠ "" then
          "    <lastmod>" ++ today ++ "</lastmod>\n" else "")
    ++ (if changeFreq ≠ "" then
          "    <changefreq>" ++ changeFreq ++ "</changefreq>\n" else "")
    ++ ("    <priority>" ++ numText priority ++ "</priority>\n")
    ++ "  </url>"

/-- The renderer options (server.js:372-373); each is optional because the
handler forwards the validated request fields, which may be absent. -/
structure XmlOptions where
  changeFreq : Option String
  priority : Option Rat
  includeLastMod : Option Bool
deriving DecidableEq

/-- `generateSitemapXML` (server.js:371-393): destructuring defaults
(weekly, 0.5, false), one entry per URL joined by newlines between the fixed
header and closing tag.  The current date (`new Date().toISOString()` date
part) is supplied as the `today` parameter. -/
def generateSitemapXML (urls : List String) (opts : XmlOptions) (today : String) : String :=
  let changeFreq := opts.changeFreq.getD "weekly"
  let priority := opts.priority.getD halfPriority
  let includeLastMod := opts.includeLastMod.getD false
  xmlHeader
    ++ joinSep "\n" (urls.map (sitemapEntry includeLastMod today changeFreq priority))
    ++ "\n</urlset>"

/-- The allowed changeFreq enumeration (security.js:51). -/
def changeFreqEnum : List String :=
  ["always", "hourly", "daily", "weekly", "monthly", "yearly", "never"]

/-- A sitemap request body after JSON parsing, with each optional field
`none` when absent.  The URL field is the parsed form of the request's URL
string (string-level parse and length checks of the schema are absorbed by
the `Url` parser abstraction); numbers are `Rat`, booleans `Bool` —
mistyped fields are schema rejections and outside this domain. -/
structure SitemapRequest where
  url : Url
  changeFreq : Option String
  priority : Option Rat
  includeLastMod : Option Bool
  includeDebug : Option Bool
deriving DecidableEq

/-- The private-host test of the schema refinement (security.js:36): a
case-insensitive prefix match for localhost, loopback and the RFC1918
ranges (a bare prefix match, exactly as the unanchored-tail pattern of the
source behaves). -/
def privateHost (host : String) : Bool :=
  let h := strLower host
  strStartsWith h "localhost" || strStartsWith h "127.0.0.1"
    || strStartsWith h "192.168." || strStartsWith h "10."
    || (["172.16", "172.17", "172.18", "172.19", "172.20", "172.21", "172.22",
         "172.23", "172.24", "172.25", "172.26", "172.27", "172.28", "172.29",
         "172.30", "172.31"].any (fun p => strStartsWith h p))

/-- The URL refinement of the schema (security.js:26-47): reject the
disallowed protocols and private hosts. -/
def urlFieldOk (u : Url) : Bool :=
  !(u.scheme = "javascript:" || u.scheme = "data:" || u.scheme = "vbscript:")
    && !(privateHost u.host)

/-- `validateSitemapRequest` (security.js:19-91).  Every optional field of
the schema is written `default(v).optional()`: the outer optional
short-circuits an absent field to undefined without ever invoking the inner
default, and a present well-typed field passes through unchanged — so
validated data carries each optional field exactly as the request supplied
it, and the schema-level defaults (including the `true` on includeLastMod)
are dead.  Present fields are checked: changeFreq against the enumeration,
priority against the [0,1] range. -/
def validateSitemapRequest (r : SitemapRequest) : Option SitemapRequest :=
  if urlFieldOk r.url
      && (match r.changeFreq with
          | none => true
          | some cf => changeFreqEnum.contains cf)
      && (match r.priority with
          | none => true
          | some p => decide (0 ≤ p ∧ p ≤ 1))
  then some r else none

/-- The POST generate-sitemap handler (server.js:414-449) composed end to
end for a validated request: crawl with maxPages fixed at 50, slice the
visited array to 50, render, and return the XML with the stats.  `none` is
the 400 validation-failure response; the oracle, robots policy, current
date and loop fuel are ambient parameters of the run. -/
def generateSitemapEndpoint (web : Url → FetchOutcome) (robots : List String)
    (today : String) (fuel : Nat) (r : SitemapRequest) : Option (String × CrawlStats) :=
  match validateSitemapRequest r with
  | none => none
  | some d =>
    let st := crawlWebsite web robots d.url 50 fuel
    let sitemapUrls := (visitedArray st).take 50
    some (generateSitemapXML sitemapUrls
            { changeFreq := d.changeFreq, priority := d.priority,
              includeLastMod := d.includeLastMod } today,
          crawlStats st)

/-- Membership after a set add. -/
theorem mem_setAdd {s : List String} {x y : String} :
    y ∈ setAdd s x ↔ y ∈ s ∨ y = x := by
  unfold setAdd
  split
  · rename_i hx
    constructor
    · exact fun h => Or.inl h
    · rintro (h | rfl) <;> assumption
  · simp [List.mem_append]

/-- The element just added is a member. -/
theorem self_mem_setAdd {s : List String} {x : String} : x ∈ setAdd s x :=
  mem_setAdd.mpr (Or.inr rfl)

/-- Adding preserves membership. -/
theorem mem_setAdd_of_mem {s : List String} {x y : String} (h : y ∈ s) :
    y ∈ setAdd s x :=
  mem_setAdd.mpr (Or.inl h)

/-- The state invariant of the crawl loop: every visited URL is discovered,
every queued URL's normalization is discovered, no two frontier entries
normalize to the same URL, the visited set respects the page cap, and every
visited entry is the normalization of some URL. -/
def CrawlInv (mp : Nat) (st : CrawlState) : Prop :=
  (∀ x ∈ st.visited, x ∈ st.discovered) ∧
  (∀ u ∈ st.queue, normalizeUrl u ∈ st.discovered) ∧
  st.queue.Pairwise (fun a b => normalizeUrl a ≠ normalizeUrl b) ∧
  st.visited.length ≤ mp ∧
  (∀ x ∈ st.visited, ∃ u, x = normalizeUrl u)

/-- One link-processing step either leaves the accumulator unchanged or
enqueues a link whose normalization was not yet discovered, recording it. -/
theorem linkStep_cases (h : String) (d : List String) (q : List Url) (l : Option Url) :
    linkStep h (d, q) l = (d, q) ∨
    ∃ link, l = some link ∧ normalizeUrl link ∉ d ∧
      linkStep h (d, q) l = (d ++ [normalizeUrl link], q ++ [link]) := by
  cases l with
  | none => exact Or.inl rfl
  | some link =>
    unfold linkStep
    by_cases h1 : isInternalLink link h = true
    · by_cases h2 : isSkippableResource link = true
      · left; simp [h1, h2]
      · by_cases h3 : normalizeUrl link ∈ d
        · left; simp [h1, h2, h3]
        · right; exact ⟨link, rfl, h3, by simp [h1, h2, h3]⟩
    · left; simp [h1]

/-- The link-processing fold preserves the frontier invariants: the
discovered set only grows, every queued URL's normalization stays
discovered, and frontier entries keep pairwise-distinct normalizations. -/
theorem linkFold_inv (h : String) :
    ∀ (links : List (Option Url)) (d : List String) (q : List Url),
      (∀ u ∈ q, normalizeUrl u ∈ d) →
      q.Pairwise (fun a b => normalizeUrl a ≠ normalizeUrl b) →
      (∀ x ∈ d, x ∈ (links.foldl (linkStep h) (d, q)).1) ∧
      (∀ u ∈ (links.foldl (linkStep h) (d, q)).2,
        normalizeUrl u ∈ (links.foldl (linkStep h) (d, q)).1) ∧
      (links.foldl (linkStep h) (d, q)).2.Pairwise
        (fun a b => normalizeUrl a ≠ normalizeUrl b) := by
  intro links
  induction links with
  | nil => exact fun d q hq hp => ⟨fun x hx => hx, hq, hp⟩
  | cons l ls ih =>
    intro d q hq hp
    rcases linkStep_cases h d q l with heq | ⟨link, _, hnew, heq⟩
    · simpa [List.foldl_cons, heq] using ih d q hq hp
    · have hq2 : ∀ u ∈ q ++ [link], normalizeUrl u ∈ d ++ [normalizeUrl link] := by
        intro u hu
        rcases List.mem_append.mp hu with hu | hu
        · exact List.mem_append.mpr (Or.inl (hq u hu))
        · rcases List.mem_singleton.mp hu with rfl
          exact List.mem_append.mpr (Or.inr (List.mem_singleton.mpr rfl))
      have hp2 : (q ++ [link]).Pairwise (fun a b => normalizeUrl a ≠ normalizeUrl b) := by
        refine List.pairwise_append.mpr ⟨hp, List.pairwise_singleton _ _, ?_⟩
        intro a ha b hb
        rcases List.mem_singleton.mp hb with rfl
        intro hcontra
        exact hnew (hcontra ▸ hq a ha)
      have hres := ih (d ++ [normalizeUrl link]) (q ++ [link]) hq2 hp2
      refine ⟨?_, ?_, ?_⟩
      · intro x hx
        have : x ∈ d ++ [normalizeUrl link] := List.mem_append.mpr (Or.inl hx)
        simpa [List.foldl_cons, heq] using hres.1 x this
      · simpa [List.foldl_cons, heq] using hres.2.1
      · simpa [List.foldl_cons, heq] using hres.2.2

/-- One crawl iteration preserves the invariant when the loop guard admits
it. -/
theorem crawlIter_inv (web : Url → FetchOutcome) (robots : List String) (h : String)
    {mp : Nat} {st : CrawlState} {current : Url} {rest : List Url}
    (hInv : CrawlInv mp st) (hq : st.queue = current :: rest)
    (hlen : st.visited.length < mp) :
    CrawlInv mp (crawlIter web robots h st current rest) := by
  obtain ⟨hvd, hqd, hqp, _, hvn⟩ := hInv
  have hcur : normalizeUrl current ∈ st.discovered := by
    apply hqd; rw [hq]; exact List.mem_cons_self _ _
  have hrest : ∀ u ∈ rest, normalizeUrl u ∈ st.discovered := by
    intro u hu; apply hqd; rw [hq]; exact List.mem_cons_of_mem _ hu
  have hrestp : rest.Pairwise (fun a b => normalizeUrl a ≠ normalizeUrl b) := by
    rw [hq] at hqp; exact hqp.of_cons
  have skip1 : CrawlInv mp { st with queue := rest } :=
    ⟨hvd, hrest, hrestp, Nat.le_of_lt hlen, hvn⟩
  have skip2 : CrawlInv mp
      { st with queue := rest, discovered := setAdd st.discovered (normalizeUrl current) } := by
    refine ⟨fun x hx => mem_setAdd_of_mem (hvd x hx),
            fun u hu => mem_setAdd_of_mem (hrest u hu),
            hrestp, Nat.le_of_lt hlen, hvn⟩
  unfold crawlIter
  split
  · exact skip1
  split
  · exact skip2
  split
  · exact skip2
  split
  · exact skip2
  · rename_i status body links heq
    split
    · exact skip2
    split
    · exact skip2
    · have hres := linkFold_inv h links st.discovered rest hrest hrestp
      refine ⟨?_, hres.2.1, hres.2.2, ?_, ?_⟩
      · intro x hx
        rcases List.mem_append.mp hx with hx | hx
        · exact hres.1 x (hvd x hx)
        · rcases List.mem_singleton.mp hx with rfl
          exact hres.1 _ hcur
      · simpa using hlen
      · intro x hx
        rcases List.mem_append.mp hx with hx | hx
        · exact hvn x hx
        · rcases List.mem_singleton.mp hx with rfl
          exact ⟨current, rfl⟩

/-- Once the visited set has reached the page cap, the loop dequeues
nothing: the state is a fixed point. -/
theorem crawlLoop_fixed_of_cap (web : Url → FetchOutcome) (robots : List String)
    (h : String) (mp : Nat) (fuel : Nat) (st : CrawlState)
    (hcap : mp ≤ st.visited.length) :
    crawlLoop web robots h mp fuel st = st := by
  cases fuel with
  | zero => rfl
  | succ fuel =>
    unfold crawlLoop
    cases st.queue with
    | nil => rfl
    | cons current rest => simp [Nat.not_lt.mpr hcap]

/-- A state with an empty frontier is a fixed point of the loop. -/
theorem crawlLoop_fixed_of_empty (web : Url → FetchOutcome) (robots : List String)
    (h : String) (mp : Nat) (fuel : Nat) (st : CrawlState)
    (hq : st.queue = []) :
    crawlLoop web robots h mp fuel st = st := by
  cases fuel with
  | zero => rfl
  | succ fuel =>
    unfold crawlLoop
    rw [hq]

/-- Unfolding equation of the loop on a running state: one unit of fuel
runs one iteration. -/
theorem crawlLoop_succ_cons (web : Url → FetchOutcome) (robots : List String)
    (h : String) (mp fuel : Nat) (st : CrawlState) (current : Url) (rest : List Url)
    (hq : st.queue = current :: rest) (hlen : st.visited.length < mp) :
    crawlLoop web robots h mp (Nat.succ fuel) st
      = crawlLoop web robots h mp fuel (crawlIter web robots h st current rest) := by
  conv_lhs => unfold crawlLoop
  rw [hq]
  simp [hlen]

/-- The crawl loop preserves the state invariant for every fuel. -/
theorem crawlLoop_inv (web : Url → FetchOutcome) (robots : List String) (h : String)
    (mp : Nat) :
    ∀ (fuel : Nat) (st : CrawlState), CrawlInv mp st →
      CrawlInv mp (crawlLoop web robots h mp fuel st) := by
  intro fuel
  induction fuel with
  | zero => exact fun st hInv => hInv
  | succ fuel ih =>
    intro st hInv
    cases hq : st.queue with
    | nil => rw [crawlLoop_fixed_of_empty web robots h mp _ st hq]; exact hInv
    | cons current rest =>
      by_cases hlen : st.visited.length < mp
      · rw [crawlLoop_succ_cons web robots h mp fuel st current rest hq hlen]
        exact ih _ (crawlIter_inv web robots h hInv hq hlen)
      · rw [crawlLoop_fixed_of_cap web robots h mp _ st (Nat.le_of_not_lt hlen)]
        exact hInv

/-- The invariant holds of every crawl, from its seeded initial state. -/
theorem crawlWebsite_inv (web : Url → FetchOutcome) (robots : List String)
    (startUrl : Url) (mp fuel : Nat) :
    CrawlInv mp (crawlWebsite web robots startUrl mp fuel) := by
  apply crawlLoop_inv
  refine ⟨by simp, ?_, ?_, by simp, by simp⟩
  · intro u hu
    rcases List.mem_singleton.mp hu with rfl
    show normalizeUrl u ∈ setAdd [] (normalizeUrl u)
    exact self_mem_setAdd
  · exact List.pairwise_singleton _ _

/-- The seed URL of the specification's crawl example:
the parse of https://example.com (its pathname is the root slash). -/
def egSeed : Url := ⟨"https:", "example.com", "", "/", [], ""⟩

/-- The first example link, https://example.com/a. -/
def egA : Url := ⟨"https:", "example.com", "", "/a", [], ""⟩

/-- The fragment variant https://example.com/a#section. -/
def egASec : Url := ⟨"https:", "example.com", "", "/a", [], "section"⟩

/-- The external link http://other.com/b. -/
def egOther : Url := ⟨"http:", "other.com", "", "/b", [], ""⟩

/-- The image resource https://example.com/logo.png. -/
def egLogo : Url := ⟨"https:", "example.com", "", "/logo.png", [], ""⟩

/-- The example site: the seed page links to the four example URLs, the
page at /a has no links, and everything else errors; the two pages have
distinct bodies. -/
def egWeb : Url → FetchOutcome := fun u =>
  if u = egSeed then
    FetchOutcome.ok 200 "seed body" [some egA, some egASec, some egOther, some egLogo]
  else if u = egA then FetchOutcome.ok 200 "a body" []
  else FetchOutcome.err

/-- C1 counterexample: on the specification's own example — seed
https://example.com linking to /a, /a#section, an external page and an
image, crawled with maxPages 50 to completion (the frontier is empty) — the
Discovered set of the code holds 2 entries, not the 4 the claim states:
the link-extraction loop returns before recording external links and
skippable resources as discovered. -/
theorem crawl_example_discovered_counterexample :
    (crawlWebsite egWeb [] egSeed 50 5).queue = [] ∧
    (crawlWebsite egWeb [] egSeed 50 5).discovered.length = 2 ∧
    ¬ (crawlWebsite egWeb [] egSeed 50 5).discovered.length = 4 := by
  refine ⟨by decide, by decide, by decide⟩

/-- C1 amended: in the example crawl, Discovered contains exactly the two
normalized internal page URLs (the seed and /a — the /a#section variant
normalizes into /a, while the external link and the image are filtered out
before the Discovered bookkeeping), and Visited contains at most 2 entries
(here exactly the same two); the crawl completes with an empty frontier. -/
theorem crawl_example_discovered_visited :
    (crawlWebsite egWeb [] egSeed 50 5).discovered
      = ["https://example.com/", "https://example.com/a"] ∧
    (crawlWebsite egWeb [] egSeed 50 5).visited
      = ["https://example.com/", "https://example.com/a"] ∧
    (crawlWebsite egWeb [] egSeed 50 5).visited.length ≤ 2 ∧
    (crawlWebsite egWeb [] egSeed 50 5).queue = [] := by
  refine ⟨by decide, by decide, by decide, by decide⟩

/-- C3: the Visited set never exceeds maxPages, a capped state is a fixed
point of the loop (no further URL is dequeued), and a crawl with maxPages 1
whose seed fetches successfully (2xx, not a resource, robots-allowed)
visits exactly the normalized seed URL and stops, whatever outbound links
the seed page has. -/
theorem crawl_maxPages_cap :
    (∀ (web : Url → FetchOutcome) (robots : List String) (startUrl : Url)
       (mp fuel : Nat),
      (crawlWebsite web robots startUrl mp fuel).visited.length ≤ mp) ∧
    (∀ (web : Url → FetchOutcome) (robots : List String) (h : String)
       (mp fuel : Nat) (st : CrawlState), mp ≤ st.visited.length →
      crawlLoop web robots h mp fuel st = st) ∧
    (∀ (web : Url → FetchOutcome) (robots : List String) (startUrl : Url)
       (status : Nat) (body : String) (links : List (Option Url)),
      web startUrl = FetchOutcome.ok status body links →
      200 ≤ status → status < 300 →
      isSkippableResource startUrl = false →
      isPathAllowed startUrl.path robots = true →
      ∀ fuel, 1 ≤ fuel →
        (crawlWebsite web robots startUrl 1 fuel).visited = [normalizeUrl startUrl]) := by
  refine ⟨?_, ?_, ?_⟩
  · intro web robots startUrl mp fuel
    exact (crawlWebsite_inv web robots startUrl mp fuel).2.2.2.1
  · intro web robots h mp fuel st hcap
    exact crawlLoop_fixed_of_cap web robots h mp fuel st hcap
  · intro web robots startUrl status body links hweb h2a h2b hskip hrob fuel hfuel
    cases fuel with
    | zero => omega
    | succ f =>
      have hstat : ¬ (status < 200 ∨ 300 ≤ status) := by omega
      unfold crawlWebsite
      rw [crawlLoop_succ_cons web robots startUrl.host 1 f _ startUrl [] rfl (by simp)]
      have hv : (crawlIter web robots startUrl.host
          { visited := [], discovered := setAdd [] (normalizeUrl startUrl),
            queue := [startUrl], contentHashes := [] } startUrl []).visited
          = [normalizeUrl startUrl] := by
        unfold crawlIter
        rw [hweb]
        simp [hskip, hrob, hstat, List.lookup]
      rw [crawlLoop_fixed_of_cap web robots startUrl.host 1 f _ (by rw [hv]; simp)]
      exact hv

/-- C3 witness: the cap bound, the fixed-point property and the
maxPages-1 behaviour at the concrete example site. -/
theorem crawl_maxPages_cap_witness :
    (crawlWebsite egWeb [] egSeed 50 5).visited.length ≤ 50 ∧
    crawlLoop egWeb [] "example.com" 0 3
      { visited := [], discovered := [], queue := [egSeed], contentHashes := [] }
      = { visited := [], discovered := [], queue := [egSeed], contentHashes := [] } ∧
    (crawlWebsite egWeb [] egSeed 1 5).visited = [normalizeUrl egSeed] :=
  ⟨crawl_maxPages_cap.1 egWeb [] egSeed 50 5,
   crawl_maxPages_cap.2.1 egWeb [] "example.com" 0 3 _ (by decide),
   crawl_maxPages_cap.2.2 egWeb [] egSeed 200 "seed body"
     [some egA, some egASec, some egOther, some egLogo]
     (by decide) (by decide) (by decide) (by decide) (by decide) 5 (by decide)⟩

/-- C4: at every point of every crawl — whatever the site, the robots
policy, the seed and the remaining fuel — every normalized URL of the
Visited set is also in the Discovered set, including along the
successful-fetch path where only the visited set is extended: the
normalization of a dequeued URL is already discovered when it is visited. -/
theorem crawl_visited_subset_discovered (web : Url → FetchOutcome)
    (robots : List String) (startUrl : Url) (mp fuel : Nat) :
    ∀ x ∈ (crawlWebsite web robots startUrl mp fuel).visited,
      x ∈ (crawlWebsite web robots startUrl mp fuel).discovered :=
  (crawlWebsite_inv web robots startUrl mp fuel).1

/-- C4 witness: a concrete visited URL of the example crawl is discovered. -/
theorem crawl_visited_subset_discovered_witness :
    "https://example.com/a" ∈ (crawlWebsite egWeb [] egSeed 50 5).visited ∧
    "https://example.com/a" ∈ (crawlWebsite egWeb [] egSeed 50 5).discovered :=
  ⟨by decide,
   crawl_visited_subset_discovered egWeb [] egSeed 50 5 "https://example.com/a" (by decide)⟩

/-- C5: at every point of every crawl the frontier queue never holds two
entries that normalize to the same URL, and every queued entry's
normalization is already in the Discovered set — so a URL whose
normalization is discovered is never enqueued a second time (the enqueue
guard only pushes normalizations that are not yet discovered). -/
theorem crawl_frontier_normalized_distinct (web : Url → FetchOutcome)
    (robots : List String) (startUrl : Url) (mp fuel : Nat) :
    (crawlWebsite web robots startUrl mp fuel).queue.Pairwise
      (fun a b => normalizeUrl a ≠ normalizeUrl b) ∧
    (∀ u ∈ (crawlWebsite web robots startUrl mp fuel).queue,
      normalizeUrl u ∈ (crawlWebsite web robots startUrl mp fuel).discovered) :=
  ⟨(crawlWebsite_inv web robots startUrl mp fuel).2.2.1,
   (crawlWebsite_inv web robots startUrl mp fuel).2.1⟩

/-- C5 witness: after one iteration of the example crawl the frontier holds
the /a link, its normalization discovered and the queue duplicate-free. -/
theorem crawl_frontier_normalized_distinct_witness :
    (crawlWebsite egWeb [] egSeed 50 1).queue.Pairwise
      (fun a b => normalizeUrl a ≠ normalizeUrl b) ∧
    (egA ∈ (crawlWebsite egWeb [] egSeed 50 1).queue ∧
      normalizeUrl egA ∈ (crawlWebsite egWeb [] egSeed 50 1).discovered) :=
  ⟨(crawl_frontier_normalized_distinct egWeb [] egSeed 50 1).1,
   by decide,
   (crawl_frontier_normalized_distinct egWeb [] egSeed 50 1).2 egA (by decide)⟩

/-- On a site whose every fetch returns one fixed body that is already
fingerprinted, a crawl iteration leaves the visited set unchanged and keeps
the body fingerprinted: every dequeued URL lands in a skip branch or in the
duplicate-content branch. -/
theorem crawlIter_stable (web : Url → FetchOutcome) (robots : List String)
    (h : String) {st : CrawlState} {current : Url} {rest : List Url} (B : String)
    (hweb : ∀ u, ∃ s l, web u = FetchOutcome.ok s B l)
    (hmem : (List.lookup B st.contentHashes).isSome = true) :
    (crawlIter web robots h st current rest).visited = st.visited ∧
    (List.lookup B (crawlIter web robots h st current rest).contentHashes).isSome = true := by
  unfold crawlIter
  split
  · exact ⟨rfl, hmem⟩
  split
  · exact ⟨rfl, hmem⟩
  split
  · exact ⟨rfl, hmem⟩
  split
  · exact ⟨rfl, hmem⟩
  · rename_i status body links heq
    split
    · exact ⟨rfl, hmem⟩
    split
    · exact ⟨rfl, hmem⟩
    · rename_i hnodup
      obtain ⟨s, l, hw⟩ := hweb current
      rw [hw] at heq
      cases heq
      exact absurd hmem hnodup

/-- On such a site the loop never grows the visited set. -/
theorem crawlLoop_visited_stable (web : Url → FetchOutcome) (robots : List String)
    (h : String) (mp : Nat) (B : String)
    (hweb : ∀ u, ∃ s l, web u = FetchOutcome.ok s B l) :
    ∀ (fuel : Nat) (st : CrawlState),
      (List.lookup B st.contentHashes).isSome = true →
      (crawlLoop web robots h mp fuel st).visited = st.visited := by
  intro fuel
  induction fuel with
  | zero => exact fun st _ => rfl
  | succ fuel ih =>
    intro st hmem
    cases hq : st.queue with
    | nil => rw [crawlLoop_fixed_of_empty web robots h mp _ st hq]
    | cons current rest =>
      by_cases hlen : st.visited.length < mp
      · rw [crawlLoop_succ_cons web robots h mp fuel st current rest hq hlen]
        have hst := @crawlIter_stable web robots h st current rest B hweb hmem
        rw [ih _ hst.2, hst.1]
      · rw [crawlLoop_fixed_of_cap web robots h mp _ st (Nat.le_of_not_lt hlen)]

/-- C6: crawling a site on which every fetched page returns byte-for-byte
identical content (every URL succeeds with one fixed body, 2xx), from a
fetchable seed (not a resource, robots-allowed) under a positive page cap,
ends with a Visited set of size exactly 1 — only the normalized seed —
however many distinct internal links the pages carry. -/
theorem crawl_identical_content_visited_one (web : Url → FetchOutcome)
    (robots : List String) (startUrl : Url) (mp : Nat) (B : String)
    (hweb : ∀ u, ∃ s l, web u = FetchOutcome.ok s B l ∧ 200 ≤ s ∧ s < 300)
    (hskip : isSkippableResource startUrl = false)
    (hrob : isPathAllowed startUrl.path robots = true)
    (hmp : 1 ≤ mp) :
    ∀ fuel, 1 ≤ fuel →
      (crawlWebsite web robots startUrl mp fuel).visited = [normalizeUrl startUrl] ∧
      (crawlWebsite web robots startUrl mp fuel).visited.length = 1 := by
  intro fuel hfuel
  cases fuel with
  | zero => omega
  | succ f =>
    obtain ⟨s, l, hw, h2a, h2b⟩ := hweb startUrl
    have hstat : ¬ (s < 200 ∨ 300 ≤ s) := by omega
    have hmain : (crawlWebsite web robots startUrl mp (Nat.succ f)).visited
        = [normalizeUrl startUrl] := by
      unfold crawlWebsite
      rw [crawlLoop_succ_cons web robots startUrl.host mp f _ startUrl [] rfl (by simpa using hmp)]
      have hiter : (crawlIter web robots startUrl.host
          { visited := [], discovered := setAdd [] (normalizeUrl startUrl),
            queue := [startUrl], contentHashes := [] } startUrl []).visited
            = [normalizeUrl startUrl] ∧
          (crawlIter web robots startUrl.host
          { visited := [], discovered := setAdd [] (normalizeUrl startUrl),
            queue := [startUrl], contentHashes := [] } startUrl []).contentHashes
            = [(B, normalizeUrl startUrl)] := by
        unfold crawlIter
        rw [hw]
        simp [hskip, hrob, hstat, List.lookup]
      rw [crawlLoop_visited_stable web robots startUrl.host mp B
        (fun u => ⟨(hweb u).choose, (hweb u).choose_spec.choose,
          (hweb u).choose_spec.choose_spec.1⟩) f _ (by rw [hiter.2]; simp [List.lookup])]
      exact hiter.1
    exact ⟨hmain, by rw [hmain]; rfl⟩

/-- A constant site: every URL serves the same body with links to two
distinct internal pages. -/
def egConstWeb : Url → FetchOutcome := fun _ =>
  FetchOutcome.ok 200 "same body everywhere"
    [some egA, some ⟨"https:", "example.com", "", "/c", [], ""⟩]

/-- C6 witness: the constant site crawled from the example seed visits
exactly the normalized seed. -/
theorem crawl_identical_content_visited_one_witness :
    (crawlWebsite egConstWeb [] egSeed 50 6).visited = [normalizeUrl egSeed] ∧
    (crawlWebsite egConstWeb [] egSeed 50 6).visited.length = 1 :=
  crawl_identical_content_visited_one egConstWeb [] egSeed 50 "same body everywhere"
    (fun _ => ⟨200, [some egA, some ⟨"https:", "example.com", "", "/c", [], ""⟩],
      rfl, by decide, by decide⟩)
    (by decide) (by decide) (by decide) 6 (by decide)

/-- Membership after accumulating a whole rule list into a set. -/
theorem mem_setAddAll {x : String} :
    ∀ (l s : List String), x ∈ setAddAll s l ↔ x ∈ s ∨ x ∈ l := by
  intro l
  induction l with
  | nil => simp [setAddAll]
  | cons a t ih =>
    intro s
    have : setAddAll s (a :: t) = setAddAll (setAdd s a) t := rfl
    rw [this, ih (setAdd s a), mem_setAdd]
    simp [List.mem_cons]
    tauto

/-- Pushing a rule appends it to that agent's list. -/
theorem mapGet_mapPush_self : ∀ (m : AgentMap) (k v : String),
    mapGet (mapPush m k v) k = some (agentRules m k ++ [v]) := by
  intro m
  induction m with
  | nil => intro k v; simp [mapPush, mapGet, agentRules, List.find?]
  | cons e rest ih =>
    intro k v
    by_cases he : e.1 = k
    · simp [mapPush, mapGet, agentRules, he, List.find?]
    · simp only [mapPush, if_neg he]
      have h1 : mapGet (e :: mapPush rest k v) k = mapGet (mapPush rest k v) k := by
        simp [mapGet, List.find?, he]
      have h2 : agentRules (e :: rest) k = agentRules rest k := by
        simp [agentRules, mapGet, List.find?, he]
      rw [h1, h2, ih k v]

/-- Pushing a rule for one agent leaves other agents' lookups unchanged. -/
theorem mapGet_mapPush_other : ∀ (m : AgentMap) (k v k' : String), k' ≠ k →
    mapGet (mapPush m k v) k' = mapGet m k' := by
  intro m
  induction m with
  | nil =>
    intro k v k' hk
    have hkk : ¬ (k = k') := fun h => hk h.symm
    simp [mapPush, mapGet, List.find?, hkk]
  | cons e rest ih =>
    intro k v k' hk
    have hkk : ¬ (k = k') := fun h => hk h.symm
    by_cases he : e.1 = k
    · simp [mapPush, mapGet, he, List.find?, hkk]
    · simp only [mapPush, if_neg he]
      by_cases he' : e.1 = k'
      · simp [mapGet, List.find?, he']
      · have h1 : mapGet (e :: mapPush rest k v) k' = mapGet (mapPush rest k v) k' := by
          simp [mapGet, List.find?, he']
        have h2 : mapGet (e :: rest) k' = mapGet rest k' := by
          simp [mapGet, List.find?, he']
        rw [h1, h2, ih k v k' hk]

/-- Lookup through an appended single entry. -/
theorem mapGet_append_one : ∀ (m : AgentMap) (k : String) (x : List String) (k' : String),
    mapGet (m ++ [(k, x)]) k' =
      match mapGet m k' with
      | some r => some r
      | none => if k = k' then some x else none := by
  intro m
  induction m with
  | nil =>
    intro k x k'
    by_cases hk : k = k' <;> simp [mapGet, List.find?, hk]
  | cons e rest ih =>
    intro k x k'
    by_cases he : e.1 = k'
    · simp [mapGet, List.find?, he]
    · simp only [List.cons_append]
      have h1 : mapGet (e :: (rest ++ [(k, x)])) k' = mapGet (rest ++ [(k, x)]) k' := by
        simp [mapGet, List.find?, he]
      have h2 : mapGet (e :: rest) k' = mapGet rest k' := by
        simp [mapGet, List.find?, he]
      rw [h1, h2, ih k x k']

/-- Initialising an (absent) agent changes no agent's rule list. -/
theorem agentRules_mapInit (m : AgentMap) (k k' : String) :
    agentRules (mapInit m k) k' = agentRules m k' := by
  unfold mapInit
  cases h : mapGet m k with
  | some r => rfl
  | none =>
    unfold agentRules
    rw [mapGet_append_one m k [] k']
    cases h2 : mapGet m k' with
    | some r => rfl
    | none => by_cases hk : k = k' <;> simp [hk]

/-- Pushing a rule preserves every agent's existing rules. -/
theorem agentRules_mapPush_mono {x k : String} (m : AgentMap) (k2 v : String)
    (h : x ∈ agentRules m k) : x ∈ agentRules (mapPush m k2 v) k := by
  by_cases hk : k = k2
  · subst hk
    unfold agentRules
    rw [mapGet_mapPush_self m k v]
    exact List.mem_append.mpr (Or.inl h)
  · unfold agentRules
    rw [mapGet_mapPush_other m k2 v k hk]
    exact h

/-- Unfolding equation of the parsing step on a skipped line. -/
theorem robotsStep_eq_skip (st : AgentMap × List String) (line : String)
    (hskip : line = "" ∨ strStartsWith line "#" = true) :
    robotsStep st line = st := by
  unfold robotsStep
  rw [if_pos hskip]

/-- Unfolding equation of the parsing step on an unparseable line. -/
theorem robotsStep_eq_noparse (st : AgentMap × List String) (line : String)
    (hskip : ¬ (line = "" ∨ strStartsWith line "#" = true))
    (hp : parseKV line = none) :
    robotsStep st line = st := by
  unfold robotsStep
  rw [if_neg hskip, hp]

/-- Unfolding equation of the parsing step on a parsed key-value line. -/
theorem robotsStep_eq_parse (st : AgentMap × List String) (line kk v : String)
    (hskip : ¬ (line = "" ∨ strStartsWith line "#" = true))
    (hp : parseKV line = some (kk, v)) :
    robotsStep st line =
      (if kk = "user-agent" then (mapInit st.1 (strLower v), [strLower v])
       else if kk = "disallow" then
         (match st.2 with
          | [] => (mapPush st.1 "*" v, [])
          | agents => (agents.foldl (fun m a => mapPush m a v) st.1, agents))
       else st) := by
  unfold robotsStep
  rw [if_neg hskip, hp]

/-- A parsing step never removes a rule from any agent. -/
theorem robotsStep_mono {x k : String} (st : AgentMap × List String) (line : String)
    (h : x ∈ agentRules st.1 k) : x ∈ agentRules (robotsStep st line).1 k := by
  by_cases hskip : line = "" ∨ strStartsWith line "#" = true
  · rw [robotsStep_eq_skip st line hskip]; exact h
  · cases hp : parseKV line with
    | none => rw [robotsStep_eq_noparse st line hskip hp]; exact h
    | some kv =>
      obtain ⟨kk, v⟩ := kv
      rw [robotsStep_eq_parse st line kk v hskip hp]
      by_cases hua : kk = "user-agent"
      · subst hua
        rw [if_pos rfl]
        show x ∈ agentRules (mapInit st.1 (strLower v)) k
        rw [agentRules_mapInit]
        exact h
      · rw [if_neg hua]
        by_cases hda : kk = "disallow"
        · subst hda
          rw [if_pos rfl]
          cases hc : st.2 with
          | nil =>
            show x ∈ agentRules (mapPush st.1 "*" v) k
            exact agentRules_mapPush_mono st.1 "*" v h
          | cons a t =>
            show x ∈ agentRules ((a :: t).foldl (fun m a => mapPush m a v) st.1) k
            have hfold : ∀ (agents : List String) (m : AgentMap), x ∈ agentRules m k →
                x ∈ agentRules (agents.foldl (fun m a => mapPush m a v) m) k := by
              intro agents
              induction agents with
              | nil => exact fun m hm => hm
              | cons b bs ihb =>
                intro m hm
                exact ihb _ (agentRules_mapPush_mono m b v hm)
            exact hfold (a :: t) st.1 h
        · rw [if_neg hda]
          exact h

/-- Folding further lines never removes a rule from any agent. -/
theorem robotsFold_mono {x k : String} :
    ∀ (lines : List String) (st : AgentMap × List String),
      x ∈ agentRules st.1 k → x ∈ agentRules (lines.foldl robotsStep st).1 k := by
  intro lines
  induction lines with
  | nil => exact fun st h => h
  | cons l t ih => exact fun st h => ih _ (robotsStep_mono st l h)

/-- Over lines none of which is a User-agent line, the current-agents list
stays empty (only the user-agent branch assigns it). -/
theorem robotsFold_no_agent :
    ∀ (pre : List String) (m : AgentMap),
      (∀ l ∈ pre, ∀ w, parseKV l ≠ some ("user-agent", w)) →
      ∃ m', pre.foldl robotsStep (m, []) = (m', []) := by
  intro pre
  induction pre with
  | nil => exact fun m _ => ⟨m, rfl⟩
  | cons l t ih =>
    intro m hna
    have hstep : ∃ m1, robotsStep (m, []) l = (m1, []) := by
      by_cases hskip : l = "" ∨ strStartsWith l "#" = true
      · exact ⟨m, robotsStep_eq_skip _ _ hskip⟩
      · cases hp : parseKV l with
        | none => exact ⟨m, robotsStep_eq_noparse _ _ hskip hp⟩
        | some kv =>
          obtain ⟨kk, v⟩ := kv
          by_cases hua : kk = "user-agent"
          · exact absurd (hua ▸ hp) (hna l (List.mem_cons_self _ _) v)
          · by_cases hda : kk = "disallow"
            · refine ⟨mapPush m "*" v, ?_⟩
              rw [robotsStep_eq_parse _ _ _ _ hskip hp, if_neg hua]
              subst hda
              rw [if_pos rfl]
            · refine ⟨m, ?_⟩
              rw [robotsStep_eq_parse _ _ _ _ hskip hp, if_neg hua, if_neg hda]
    obtain ⟨m1, hm1⟩ := hstep
    have := ih m1 (fun l2 hl2 w => hna l2 (List.mem_cons_of_mem _ hl2) w)
    simpa [List.foldl_cons, hm1] using this

/-- Membership in the effective disallow set is the union of the
crawler-specific and wildcard agents' rules. -/
theorem mem_parseRobotsLines (lines : List String) (p : String) :
    p ∈ parseRobotsLines lines ↔
      p ∈ agentRules (robotsAgents lines) "sitemap-generator" ∨
      p ∈ agentRules (robotsAgents lines) "*" := by
  unfold parseRobotsLines
  rw [mem_setAddAll, mem_setAddAll]
  simp

/-- C7: a Disallow line encountered before any User-agent line is recorded
as a wildcard-agent rule and lands in the effective disallow set; and the
effective disallow set is exactly the union of the crawler-specific agent's
rules and the wildcard agent's rules — merged, not substituted. -/
theorem robots_preagent_wildcard_and_union :
    (∀ (lines pre rest : List String) (dline v : String),
      lines = pre ++ dline :: rest →
      parseKV dline = some ("disallow", v) →
      ¬ (dline = "" ∨ strStartsWith dline "#" = true) →
      (∀ l ∈ pre, ∀ w, parseKV l ≠ some ("user-agent", w)) →
      v ∈ agentRules (robotsAgents lines) "*" ∧ v ∈ parseRobotsLines lines) ∧
    (∀ (lines : List String) (p : String),
      p ∈ parseRobotsLines lines ↔
        p ∈ agentRules (robotsAgents lines) "sitemap-generator" ∨
        p ∈ agentRules (robotsAgents lines) "*") := by
  constructor
  · intro lines pre rest dline v hsplit hparse hnskip hna
    have hstar : v ∈ agentRules (robotsAgents lines) "*" := by
      subst hsplit
      unfold robotsAgents
      rw [List.foldl_append]
      obtain ⟨m', hm'⟩ := robotsFold_no_agent pre [] hna
      rw [hm', List.foldl_cons]
      have hstep : robotsStep (m', []) dline = (mapPush m' "*" v, []) := by
        rw [robotsStep_eq_parse _ _ _ _ hnskip hparse, if_neg (by decide), if_pos rfl]
      rw [hstep]
      apply robotsFold_mono
      show v ∈ agentRules (mapPush m' "*" v) "*"
      unfold agentRules
      rw [mapGet_mapPush_self m' "*" v]
      exact List.mem_append.mpr (Or.inr (List.mem_singleton.mpr rfl))
    exact ⟨hstar, (mem_parseRobotsLines lines v).mpr (Or.inr hstar)⟩
  · exact mem_parseRobotsLines

/-- C7 witness: concrete robots.txt lines where a Disallow precedes any
User-agent line, with both a crawler-specific and a wildcard block. -/
theorem robots_preagent_wildcard_and_union_witness :
    ("/secret" ∈ agentRules (robotsAgents
        ["Disallow: /secret", "User-agent: sitemap-generator", "Disallow: /s2",
         "User-agent: *", "Disallow: /tmp"]) "*" ∧
      "/secret" ∈ parseRobotsLines
        ["Disallow: /secret", "User-agent: sitemap-generator", "Disallow: /s2",
         "User-agent: *", "Disallow: /tmp"]) ∧
    ("/s2" ∈ parseRobotsLines
        ["Disallow: /secret", "User-agent: sitemap-generator", "Disallow: /s2",
         "User-agent: *", "Disallow: /tmp"] ↔
      "/s2" ∈ agentRules (robotsAgents
        ["Disallow: /secret", "User-agent: sitemap-generator", "Disallow: /s2",
         "User-agent: *", "Disallow: /tmp"]) "sitemap-generator" ∨
      "/s2" ∈ agentRules (robotsAgents
        ["Disallow: /secret", "User-agent: sitemap-generator", "Disallow: /s2",
         "User-agent: *", "Disallow: /tmp"]) "*") :=
  ⟨robots_preagent_wildcard_and_union.1
      ["Disallow: /secret", "User-agent: sitemap-generator", "Disallow: /s2",
       "User-agent: *", "Disallow: /tmp"]
      []
      ["User-agent: sitemap-generator", "Disallow: /s2",
       "User-agent: *", "Disallow: /tmp"]
      "Disallow: /secret" "/secret" rfl (by decide) (by decide)
      (fun l hl w => absurd hl (List.not_mem_nil l)),
   robots_preagent_wildcard_and_union.2
      ["Disallow: /secret", "User-agent: sitemap-generator", "Disallow: /s2",
       "User-agent: *", "Disallow: /tmp"] "/s2"⟩

/-- ASCII case-folding is idempotent on characters. -/
theorem char_toLower_idem (c : Char) : c.toLower.toLower = c.toLower := by
  simp only [Char.toLower]
  by_cases h : c.toNat ≥ 65 ∧ c.toNat ≤ 90
  · rw [if_pos h]
    have hval : (c.toNat + 32).isValidChar := Or.inl (by omega)
    have htn : (Char.ofNat (c.toNat + 32)).toNat = c.toNat + 32 := by
      unfold Char.ofNat
      rw [dif_pos hval]
      rfl
    rw [if_neg]
    rw [htn]
    omega
  · rw [if_neg h, if_neg h]

/-- Lowercasing is idempotent on strings. -/
theorem strLower_idem (s : String) : strLower (strLower s) = strLower s := by
  show String.mk (List.map Char.toLower (List.map Char.toLower s.data)) = _
  rw [List.map_map]
  have : Char.toLower ∘ Char.toLower = Char.toLower := by
    funext c
    exact char_toLower_idem c
  rw [this]
  rfl

/-- Collapsing keeps the head character. -/
theorem collapseSlashes_cons (b : Char) (rest : List Char) :
    ∃ t, collapseSlashes (b :: rest) = b :: t := by
  induction rest generalizing b with
  | nil => exact ⟨[], rfl⟩
  | cons c r ih =>
    by_cases h : b = '/' ∧ c = '/'
    · obtain ⟨t, ht⟩ := ih c
      refine ⟨t, ?_⟩
      rw [collapseSlashes, if_pos h, ht, h.1, h.2]
    · obtain ⟨t, ht⟩ := ih c
      exact ⟨collapseSlashes (c :: r), by rw [collapseSlashes, if_neg h]⟩

/-- A collapsed path has no two adjacent slashes. -/
theorem chain'_collapseSlashes (l : List Char) :
    List.Chain' (fun a b => ¬(a = '/' ∧ b = '/')) (collapseSlashes l) := by
  induction l using collapseSlashes.induct with
  | case1 => simp [collapseSlashes]
  | case2 c => simp [collapseSlashes]
  | case3 a b rest h ih =>
    rw [collapseSlashes, if_pos h]
    exact ih
  | case4 a b rest h ih =>
    rw [collapseSlashes, if_neg h]
    obtain ⟨t, ht⟩ := collapseSlashes_cons b rest
    rw [ht]
    rw [ht] at ih
    refine List.chain'_cons'.mpr ⟨?_, ih⟩
    intro y hy
    simp only [List.head?_cons, Option.mem_def, Option.some.injEq] at hy
    subst hy
    exact h

/-- Collapsing a list without adjacent slashes is the identity. -/
theorem collapseSlashes_eq_self :
    ∀ l : List Char, List.Chain' (fun a b => ¬(a = '/' ∧ b = '/')) l →
      collapseSlashes l = l := by
  intro l
  induction l using collapseSlashes.induct with
  | case1 => intro _; rfl
  | case2 c => intro _; rfl
  | case3 a b rest h ih =>
    intro hc
    exact absurd h (List.chain'_cons.mp hc).1
  | case4 a b rest h ih =>
    intro hc
    rw [collapseSlashes, if_neg h, ih (List.chain'_cons.mp hc).2]

/-- Collapsing is idempotent. -/
theorem collapseSlashes_idem (l : List Char) :
    collapseSlashes (collapseSlashes l) = collapseSlashes l :=
  collapseSlashes_eq_self _ (chain'_collapseSlashes l)

/-- Stripping the trailing slash keeps the no-adjacent-slashes property. -/
theorem chain'_stripTrailingSlash {l : List Char}
    (hc : List.Chain' (fun a b => ¬(a = '/' ∧ b = '/')) l) :
    List.Chain' (fun a b => ¬(a = '/' ∧ b = '/')) (stripTrailingSlash l) := by
  unfold stripTrailingSlash
  split
  · exact List.Chain'.prefix hc ( List.dropLast_prefix _)
  · exact hc

/-- The path normalization (collapse then strip) is idempotent. -/
theorem pathNorm_idem (l : List Char) :
    stripTrailingSlash (collapseSlashes (stripTrailingSlash (collapseSlashes l)))
      = stripTrailingSlash (collapseSlashes l) := by
  have hck : List.Chain' (fun a b => ¬(a = '/' ∧ b = '/')) (collapseSlashes l) :=
    chain'_collapseSlashes l
  rw [collapseSlashes_eq_self _ (chain'_stripTrailingSlash hck)]
  set k := collapseSlashes l with hk
  by_cases hcond : 1 < k.length ∧ k.getLast? = some '/'
  · have h1 : stripTrailingSlash k = k.dropLast := by
      unfold stripTrailingSlash
      rw [if_pos hcond]
    rw [h1]
    unfold stripTrailingSlash
    rw [if_neg]
    rintro ⟨hlen2, hlast2⟩
    have hkne : k ≠ [] := by
      intro e
      rw [e] at hcond
      simp at hcond
    have hsplit : k.dropLast ++ [k.getLast hkne] = k := List.dropLast_append_getLast hkne
    have hlastk : k.getLast hkne = '/' := by
      have h2 := hcond.2
      rw [List.getLast?_eq_getLast k hkne] at h2
      exact Option.some.inj h2
    have hc2 := hck
    rw [← hsplit] at hc2
    have h3 := (List.chain'_append.mp hc2).2.2
    exact (h3 '/' hlast2 (k.getLast hkne) (by simp)) ⟨rfl, hlastk⟩
  · have h1 : stripTrailingSlash k = k := by
      unfold stripTrailingSlash
      rw [if_neg hcond]
    rw [h1, h1]

/-- Filtering then stably sorting the query parameters is idempotent. -/
theorem sortFilter_idem (q : List (String × String)) :
    List.insertionSort keyLe
      ((List.insertionSort keyLe
        (q.filter (fun kv => !(trackingKeys.contains kv.1)))).filter
          (fun kv => !(trackingKeys.contains kv.1)))
      = List.insertionSort keyLe (q.filter (fun kv => !(trackingKeys.contains kv.1))) := by
  have hperm := List.perm_insertionSort keyLe
    (q.filter (fun kv => !(trackingKeys.contains kv.1)))
  have hall : ∀ kv ∈ List.insertionSort keyLe
      (q.filter (fun kv => !(trackingKeys.contains kv.1))),
      (fun kv : String × String => !(trackingKeys.contains kv.1)) kv = true := by
    intro kv hkv
    exact (List.mem_filter.mp (hperm.mem_iff.mp hkv)).2
  rw [List.filter_eq_self.mpr hall]
  exact List.Sorted.insertionSort_eq (List.sorted_insertionSort keyLe _)

/-- The structural normalization is idempotent. -/
theorem normCore_idem (u : Url) : normCore (normCore u) = normCore u := by
  unfold normCore
  simp only [Url.mk.injEq]
  refine ⟨strLower_idem u.scheme, strLower_idem u.host, ?_, ?_,
    sortFilter_idem u.query, trivial⟩
  · by_cases hc : strLower u.scheme = "http:" ∧ u.port = "80"
        ∨ strLower u.scheme = "https:" ∧ u.port = "443"
    · simp only [if_pos hc, ite_self]
    · simp only [if_neg hc]
      rw [strLower_idem u.scheme]
      rw [if_neg hc]
  · exact congrArg String.mk (pathNorm_idem u.path.data)

/-- C9: normalization is idempotent — normalizing an already-normalized URL
yields the same result.  Reparsing the normalized output string recovers the
normalized `Url` structure (the parse of a serialized URL is that URL), so
idempotence is stated on the structure: a second `normalizeUrl` pass over
the normalized form returns the identical string. -/
theorem normalizeUrl_idempotent :
    (∀ u : Url, normCore (normCore u) = normCore u) ∧
    (∀ u : Url, normalizeUrl (normCore u) = normalizeUrl u) := by
  refine ⟨normCore_idem, fun u => ?_⟩
  unfold normalizeUrl
  rw [normCore_idem]

/-- Two key-sorted parameter lists that are permutations of one another and
whose keys are pairwise distinct are equal. -/
theorem sorted_perm_eq_of_nodup_keys :
    ∀ (l1 l2 : List (String × String)),
      List.Sorted keyLe l1 → List.Sorted keyLe l2 → l1.Perm l2 →
      (l1.map Prod.fst).Nodup → l1 = l2 := by
  intro l1
  induction l1 with
  | nil =>
    intro l2 _ _ hperm _
    exact List.Perm.nil_eq hperm
  | cons a t1 ih =>
    intro l2 hs1 hs2 hperm hnd
    cases l2 with
    | nil => exact absurd (List.Perm.nil_eq hperm.symm).symm (List.cons_ne_nil a t1)
    | cons b t2 =>
      by_cases hab : a = b
      · subst hab
        have hteq := ih t2 (List.Sorted.of_cons hs1) (List.Sorted.of_cons hs2)
          (List.Perm.cons_inv hperm) (List.Nodup.of_cons hnd)
        rw [hteq]
      · have hamem : a ∈ b :: t2 := hperm.mem_iff.mp (List.mem_cons_self a t1)
        have hat2 : a ∈ t2 := by
          rcases List.mem_cons.mp hamem with h | h
          · exact absurd h hab
          · exact h
        have hbmem : b ∈ a :: t1 := hperm.symm.mem_iff.mp (List.mem_cons_self b t2)
        have hbt1 : b ∈ t1 := by
          rcases List.mem_cons.mp hbmem with h | h
          · exact absurd h.symm hab
          · exact h
        have hba : keyLe b a := List.rel_of_sorted_cons hs2 a hat2
        have hab2 : keyLe a b := List.rel_of_sorted_cons hs1 b hbt1
        have hkeys : a.1 = b.1 := by
          have := charListLe_antisymm a.1.data b.1.data hab2 hba
          cases ha : a.1
          cases hb : b.1
          rw [ha, hb] at this
          simp at this
          rw [this]
        exact absurd (hkeys ▸ List.mem_map_of_mem Prod.fst hbt1)
          ((List.nodup_cons.mp hnd).1)

/-- C8 counterexample: two URLs identical except for the order of their
(remaining) query parameters — the duplicate key a carries values 1 and 2
in the two orders — normalize to different output strings: the stable
key-only sort preserves the relative order of equal-key parameters, so both
orders survive normalization. -/
theorem normalizeUrl_query_order_counterexample :
    (Url.mk "https:" "h.com" "" "/" [("a", "1"), ("a", "2")] "").query.Perm
      (Url.mk "https:" "h.com" "" "/" [("a", "2"), ("a", "1")] "").query ∧
    normalizeUrl (Url.mk "https:" "h.com" "" "/" [("a", "1"), ("a", "2")] "")
      ≠ normalizeUrl (Url.mk "https:" "h.com" "" "/" [("a", "2"), ("a", "1")] "") :=
  ⟨by decide, by decide⟩

/-- C8 amended: normalize returns identical output strings on URLs that
differ only in fragment, only in an explicit default port (80 for http, 443
for https) against no port, only in the presence of one of the fixed
tracking parameters, or only in the order of the remaining query
parameters provided those have pairwise-distinct keys (with a duplicated
key, the stable sort preserves the two different relative orders — the
counterexample above). -/
theorem normalizeUrl_equivalences :
    (∀ (u : Url) (f g : String),
      normalizeUrl { u with fragment := f } = normalizeUrl { u with fragment := g }) ∧
    (∀ (u : Url) (p : String),
      (u.scheme = "http:" ∧ p = "80") ∨ (u.scheme = "https:" ∧ p = "443") →
      normalizeUrl { u with port := p } = normalizeUrl { u with port := "" }) ∧
    (∀ (u : Url) (q1 q2 : List (String × String)) (k v : String),
      k ∈ trackingKeys →
      normalizeUrl { u with query := q1 ++ (k, v) :: q2 }
        = normalizeUrl { u with query := q1 ++ q2 }) ∧
    (∀ (u : Url) (q1 q2 : List (String × String)),
      q1.Perm q2 →
      ((q1.filter (fun kv => !(trackingKeys.contains kv.1))).map Prod.fst).Nodup →
      normalizeUrl { u with query := q1 } = normalizeUrl { u with query := q2 }) := by
  refine ⟨?_, ?_, ?_, ?_⟩
  · intro u f g
    rfl
  · intro u p h
    unfold normalizeUrl
    apply congrArg urlToString
    unfold normCore
    simp only [Url.mk.injEq, and_true, true_and]
    have hR : ¬ ((strLower u.scheme = "http:" ∧ ("" : String) = "80")
        ∨ (strLower u.scheme = "https:" ∧ ("" : String) = "443")) := by
      rintro (⟨_, h2⟩ | ⟨_, h2⟩) <;> exact absurd h2 (by decide)
    have hL : (strLower u.scheme = "http:" ∧ p = "80")
        ∨ (strLower u.scheme = "https:" ∧ p = "443") := by
      rcases h with ⟨hs, hp⟩ | ⟨hs, hp⟩
      · exact Or.inl ⟨by rw [hs]; decide, hp⟩
      · exact Or.inr ⟨by rw [hs]; decide, hp⟩
    rw [if_pos hL, if_neg hR]
  · intro u q1 q2 k v hk
    unfold normalizeUrl
    apply congrArg urlToString
    unfold normCore
    simp only [Url.mk.injEq, and_true, true_and]
    apply congrArg (List.insertionSort keyLe)
    rw [List.filter_append, List.filter_append]
    apply congrArg (List.filter (fun kv => !(trackingKeys.contains kv.1)) q1 ++ ·)
    rw [List.filter_cons_of_neg]
    simp [List.elem_eq_true_of_mem hk]
    exact hk
  · intro u q1 q2 hperm hnodup
    unfold normalizeUrl
    apply congrArg urlToString
    unfold normCore
    simp only [Url.mk.injEq, and_true, true_and]
    have hfperm : (q1.filter (fun kv => !(trackingKeys.contains kv.1))).Perm
        (q2.filter (fun kv => !(trackingKeys.contains kv.1))) :=
      hperm.filter _
    apply sorted_perm_eq_of_nodup_keys
    · exact List.sorted_insertionSort keyLe _
    · exact List.sorted_insertionSort keyLe _
    · exact (List.perm_insertionSort keyLe _).trans
        (hfperm.trans (List.perm_insertionSort keyLe _).symm)
    · exact ((List.perm_insertionSort keyLe
        (q1.filter (fun kv => !(trackingKeys.contains kv.1)))).map
          Prod.fst).nodup_iff.mpr hnodup

/-- C8 witness: concrete instances of each amended equivalence. -/
theorem normalizeUrl_equivalences_witness :
    normalizeUrl (Url.mk "https:" "h.com" "" "/x" [] "frag")
      = normalizeUrl (Url.mk "https:" "h.com" "" "/x" [] "") ∧
    normalizeUrl (Url.mk "http:" "h.com" "80" "/x" [] "")
      = normalizeUrl (Url.mk "http:" "h.com" "" "/x" [] "") ∧
    normalizeUrl (Url.mk "https:" "h.com" "" "/x" [("a", "1"), ("utm_source", "z"), ("b", "2")] "")
      = normalizeUrl (Url.mk "https:" "h.com" "" "/x" [("a", "1"), ("b", "2")] "") ∧
    normalizeUrl (Url.mk "https:" "h.com" "" "/x" [("b", "2"), ("a", "1")] "")
      = normalizeUrl (Url.mk "https:" "h.com" "" "/x" [("a", "1"), ("b", "2")] "") :=
  ⟨normalizeUrl_equivalences.1 (Url.mk "https:" "h.com" "" "/x" [] "") "frag" "",
   normalizeUrl_equivalences.2.1 (Url.mk "http:" "h.com" "" "/x" [] "") "80"
     (Or.inl ⟨rfl, rfl⟩),
   normalizeUrl_equivalences.2.2.1 (Url.mk "https:" "h.com" "" "/x" [] "")
     [("a", "1")] [("b", "2")] "utm_source" "z" (by decide),
   normalizeUrl_equivalences.2.2.2 (Url.mk "https:" "h.com" "" "/x" [] "")
     [("b", "2"), ("a", "1")] [("a", "1"), ("b", "2")] (by decide) (by decide)⟩

/-- Number of occurrences of a pattern in a character list: one per start
position at which the pattern matches. -/
def countOccs (pat : List Char) : List Char → Nat
  | [] => 0
  | c :: rest => (if pat <+: (c :: rest) then 1 else 0) + countOccs pat rest

/-- No non-empty proper suffix of the list is a pattern head: no pattern
occurrence can straddle the list's right edge. -/
def SafeCut (pat a : List Char) : Prop :=
  ∀ t : List Char, t <:+ a → t ≠ [] → t.length < pat.length → ¬ t <+: pat

/-- Decidable reformulation of the straddle-freedom condition. -/
theorem safeCut_iff (pat a : List Char) :
    SafeCut pat a ↔ ∀ t ∈ a.tails, t = [] ∨ pat.length ≤ t.length ∨ ¬ t <+: pat := by
  constructor
  · intro h t ht
    by_cases h1 : t = []
    · exact Or.inl h1
    by_cases h2 : pat.length ≤ t.length
    · exact Or.inr (Or.inl h2)
    · exact Or.inr (Or.inr (h t ((List.mem_tails t a).mp ht) h1 (Nat.lt_of_not_le h2)))
  · intro h t hsuf hne hlen
    rcases h t ((List.mem_tails t a).mpr hsuf) with h1 | h1 | h1
    · exact absurd h1 hne
    · omega
    · exact h1

/-- A prefix no longer than the left part of an append is a prefix of the
left part. -/
theorem prefix_append_iff_of_le {pat a b : List Char} (h : pat.length ≤ a.length) :
    pat <+: a ++ b ↔ pat <+: a := by
  constructor
  · intro hp
    have htake : pat = (a ++ b).take pat.length := List.prefix_iff_eq_take.mp hp
    rw [List.take_append_of_le_length h] at htake
    exact htake ▸ List.take_prefix pat.length a
  · intro hp
    exact hp.trans (List.prefix_append a b)

/-- Occurrence counting distributes over an append whose left part no
occurrence can straddle. -/
theorem countOccs_append (pat : List Char) :
    ∀ (a b : List Char), SafeCut pat a →
      countOccs pat (a ++ b) = countOccs pat a + countOccs pat b := by
  intro a
  induction a with
  | nil => intro b _; simp [countOccs]
  | cons c a2 ih =>
    intro b hsafe
    have hsafe2 : SafeCut pat a2 :=
      fun t ht hne hlen => hsafe t (ht.trans (List.suffix_cons c a2)) hne hlen
    have hiff : (pat <+: c :: (a2 ++ b)) ↔ (pat <+: c :: a2) := by
      by_cases hlen : pat.length ≤ (c :: a2).length
      · rw [← List.cons_append]
        exact prefix_append_iff_of_le hlen
      · constructor
        · intro hp
          exfalso
          rw [← List.cons_append] at hp
          have h1 : (c :: a2) <+: pat :=
            List.prefix_of_prefix_length_le (List.prefix_append (c :: a2) b) hp
              (Nat.le_of_not_lt (fun hlt => hlen (Nat.le_of_lt hlt)))
          exact hsafe (c :: a2) (List.suffix_refl _) (by simp)
            (Nat.lt_of_not_le hlen) h1
        · intro hp
          exact absurd hp.length_le hlen
    rw [List.cons_append, countOccs, ih b hsafe2]
    conv_rhs => rw [countOccs]
    rw [if_congr hiff rfl rfl]
    omega

/-- A pattern headed by a character absent from the list never occurs in
it. -/
theorem countOccs_eq_zero_of_not_mem (c0 : Char) (pt : List Char) :
    ∀ a : List Char, c0 ∉ a → countOccs (c0 :: pt) a = 0 := by
  intro a
  induction a with
  | nil => intro _; rfl
  | cons d rest ih =>
    intro h
    rw [countOccs, if_neg, ih (fun hm => h (List.mem_cons_of_mem d hm))]
    intro hp
    exact h ((List.cons_prefix_iff.mp hp).1 ▸ List.mem_cons_self d rest)

/-- A list missing the pattern's head character cannot be straddled by it
either. -/
theorem safeCut_of_not_mem (c0 : Char) (pt : List Char) (a : List Char)
    (h : c0 ∉ a) : SafeCut (c0 :: pt) a := by
  intro t hsuf hne _ hp
  cases t with
  | nil => exact hne rfl
  | cons th tt =>
    have := (List.cons_prefix_iff.mp hp).1
    exact h (this ▸ hsuf.subset (List.mem_cons_self th tt))

/-- The empty list is trivially straddle-free. -/
theorem safeCut_nil (pat : List Char) : SafeCut pat [] := by
  intro t hsuf hne _
  rw [List.suffix_nil.mp hsuf] at hne
  exact absurd rfl hne

/-- Straddle-freedom follows from straddle-freedom of a suffix at least as
long as the pattern minus one. -/
theorem safeCut_of_suffix (pat a y : List Char) (hsuf : y <:+ a)
    (hlen : pat.length ≤ y.length + 1) (hy : SafeCut pat y) : SafeCut pat a := by
  intro t ht hne hlt
  exact hy t (List.suffix_of_suffix_length_le ht hsuf (by omega)) hne hlt

/-- Suffixes persist through a left append. -/
theorem suffix_append_right {y l : List Char} (h : y <:+ l) (x : List Char) :
    y <:+ x ++ l := by
  obtain ⟨w, hw⟩ := h
  exact ⟨x ++ w, by rw [← hw, List.append_assoc]⟩

/-- A non-empty pattern occurs at least once in any list having it as an
infix segment. -/
theorem countOccs_pos_of_infix (pat : List Char) (hne : pat ≠ [])
    {s : List Char} (hinf : pat <:+: s) : 0 < countOccs pat s := by
  obtain ⟨lft, rgt, heq⟩ := hinf
  subst heq
  induction lft with
  | nil =>
    cases pat with
    | nil => exact absurd rfl hne
    | cons p0 pt =>
      simp only [List.nil_append, List.cons_append]
      rw [countOccs, if_pos]
      · omega
      · rw [← List.cons_append]
        exact List.prefix_append (p0 :: pt) rgt
  | cons c l ih =>
    simp only [List.cons_append]
    rw [countOccs]
    simp only [List.cons_append] at ih
    omega

/-- Occurrence counting over a flattened piece list sums the per-piece
counts when no piece can be straddled. -/
theorem countOccs_flatten (pat : List Char) :
    ∀ ps : List (List Char), (∀ p ∈ ps, SafeCut pat p) →
      countOccs pat ps.flatten = (ps.map (countOccs pat)).sum := by
  intro ps
  induction ps with
  | nil => intro _; rfl
  | cons p ps2 ih =>
    intro h
    rw [List.flatten_cons, countOccs_append pat p ps2.flatten (h p (List.mem_cons_self p ps2)),
      List.map_cons, List.sum_cons, ih (fun q hq => h q (List.mem_cons_of_mem p hq))]

/-- The data of an appended string is the appended data. -/
theorem strData_append (a b : String) : (a ++ b).data = a.data ++ b.data := rfl

/-- XML escaping leaves no left angle bracket in its output. -/
theorem escapeXml_no_lt (s : String) : '<' ∉ (escapeXml s).data := by
  show '<' ∉ (s.data.map escChar).flatten
  intro h
  rw [List.mem_flatten] at h
  obtain ⟨l, hl, hmem⟩ := h
  rw [List.mem_map] at hl
  obtain ⟨c, _, rfl⟩ := hl
  unfold escChar at hmem
  split at hmem
  · simp at hmem
  split at hmem
  · simp at hmem
  split at hmem
  · simp at hmem
  split at hmem
  · simp at hmem
  split at hmem
  · simp at hmem
  · rename_i h1 _ _ _ _
    rw [List.mem_singleton] at hmem
    exact h1 hmem.symm

/-- Every digit character differs from the left angle bracket. -/
theorem digitChar_ne_lt (d : Nat) : digitChar d ≠ '<' := by
  unfold digitChar
  split <;> decide

/-- All characters of the integer-digit rendering are digit characters. -/
theorem natDigitsAux_chars : ∀ (fuel n : Nat), ∀ c ∈ natDigitsAux fuel n, ∃ d, c = digitChar d := by
  intro fuel
  induction fuel with
  | zero => intro n c h; simp [natDigitsAux] at h
  | succ f ih =>
    intro n c h
    rw [natDigitsAux] at h
    split at h
    · rw [List.mem_singleton] at h
      exact ⟨n, h⟩
    · rw [List.mem_append] at h
      rcases h with h | h
      · exact ih _ c h
      · rw [List.mem_singleton] at h
        exact ⟨n % 10, h⟩

/-- All characters of the fraction-digit rendering are digit characters. -/
theorem fracDigitsAux_chars : ∀ (fuel num den : Nat), ∀ c ∈ fracDigitsAux fuel num den,
    ∃ d, c = digitChar d := by
  intro fuel
  induction fuel with
  | zero => intro num den c h; simp [fracDigitsAux] at h
  | succ f ih =>
    intro num den c h
    rw [fracDigitsAux] at h
    split at h
    · simp at h
    · rw [List.mem_cons] at h
      rcases h with h | h
      · exact ⟨num * 10 / den, h⟩
      · exact ih _ _ c h

/-- The decimal rendering of a number has no left angle bracket. -/
theorem numText_no_lt (q : Rat) : '<' ∉ (numText q).data := by
  intro h
  unfold numText at h
  simp only [List.mem_append] at h
  rcases h with (h | h) | h
  · split at h
    · rw [List.mem_singleton] at h
      exact absurd h (by decide)
    · simp at h
  · obtain ⟨d, hd⟩ := natDigitsAux_chars _ _ '<' h
    exact digitChar_ne_lt d hd.symm
  · split at h
    · simp at h
    · rw [List.mem_cons] at h
      rcases h with h | h
      · exact absurd h (by decide)
      · obtain ⟨d, hd⟩ := fracDigitsAux_chars _ _ _ '<' h
        exact digitChar_ne_lt d hd.symm

/-- A pattern headed by a character absent from the list never occurs. -/
theorem countOccs_eq_zero_of_head_not_mem (pat : List Char) (c0 : Char)
    (hhead : pat.head? = some c0) (a : List Char) (h : c0 ∉ a) :
    countOccs pat a = 0 := by
  cases pat with
  | nil => simp at hhead
  | cons p0 pt =>
    rw [List.head?_cons, Option.some.injEq] at hhead
    subst hhead
    exact countOccs_eq_zero_of_not_mem p0 pt a h

/-- A list missing the pattern's head character cannot straddle it. -/
theorem safeCut_of_head_not_mem (pat : List Char) (c0 : Char)
    (hhead : pat.head? = some c0) (a : List Char) (h : c0 ∉ a) :
    SafeCut pat a := by
  cases pat with
  | nil => simp at hhead
  | cons p0 pt =>
    rw [List.head?_cons, Option.some.injEq] at hhead
    subst hhead
    exact safeCut_of_not_mem p0 pt a h

/-- Each rendered url entry contains exactly one url open tag, and no
occurrence can straddle its edges. -/
theorem countOccs_url_entry (ilm : Bool) (today cf : String) (pr : Rat) (loc : String)
    (htoday : '<' ∉ today.data) (hcf : '<' ∉ cf.data) :
    countOccs "<url>".data (sitemapEntry ilm today cf pr loc).data = 1 ∧
    SafeCut "<url>".data (sitemapEntry ilm today cf pr loc).data := by
  have hesc := escapeXml_no_lt loc
  have hnum := numText_no_lt pr
  constructor
  · by_cases hlm : ilm = true ∧ today ≠ ""
    · by_cases hcfe : cf ≠ ""
      · have hdata : (sitemapEntry ilm today cf pr loc).data =
            ["  <url>\n".data, "    <loc>".data, (escapeXml loc).data, "</loc>\n".data,
             "    <lastmod>".data, today.data, "</lastmod>\n".data,
             "    <changefreq>".data, cf.data, "</changefreq>\n".data,
             "    <priority>".data, (numText pr).data, "</priority>\n".data,
             "  </url>".data].flatten := by
          unfold sitemapEntry
          rw [if_pos hlm, if_pos hcfe]
          simp only [strData_append, List.flatten_cons, List.flatten_nil,
            List.append_assoc, List.append_nil]
        rw [hdata, countOccs_flatten]
        · simp only [List.map_cons, List.map_nil, List.sum_cons, List.sum_nil]
          rw [countOccs_eq_zero_of_head_not_mem "<url>".data '<' (by decide) _ hesc,
              countOccs_eq_zero_of_head_not_mem "<url>".data '<' (by decide) _ htoday,
              countOccs_eq_zero_of_head_not_mem "<url>".data '<' (by decide) _ hcf,
              countOccs_eq_zero_of_head_not_mem "<url>".data '<' (by decide) _ hnum]
          decide
        · intro p hp
          simp only [List.mem_cons, List.not_mem_nil, or_false] at hp
          rcases hp with rfl | rfl | rfl | rfl | rfl | rfl | rfl | rfl | rfl | rfl | rfl | rfl | rfl | rfl
          all_goals first
            | exact safeCut_of_head_not_mem _ '<' (by decide) _ (by assumption)
            | exact (safeCut_iff _ _).mpr (by decide)
      · have hdata : (sitemapEntry ilm today cf pr loc).data =
            ["  <url>\n".data, "    <loc>".data, (escapeXml loc).data, "</loc>\n".data,
             "    <lastmod>".data, today.data, "</lastmod>\n".data,
             "    <priority>".data, (numText pr).data, "</priority>\n".data,
             "  </url>".data].flatten := by
          unfold sitemapEntry
          rw [if_pos hlm, if_neg hcfe]
          simp only [strData_append, List.flatten_cons, List.flatten_nil,
            List.append_assoc, List.append_nil]
        rw [hdata, countOccs_flatten]
        · simp only [List.map_cons, List.map_nil, List.sum_cons, List.sum_nil]
          rw [countOccs_eq_zero_of_head_not_mem "<url>".data '<' (by decide) _ hesc,
              countOccs_eq_zero_of_head_not_mem "<url>".data '<' (by decide) _ htoday,
              countOccs_eq_zero_of_head_not_mem "<url>".data '<' (by decide) _ hnum]
          decide
        · intro p hp
          simp only [List.mem_cons, List.not_mem_nil, or_false] at hp
          rcases hp with rfl | rfl | rfl | rfl | rfl | rfl | rfl | rfl | rfl | rfl | rfl
          all_goals first
            | exact safeCut_of_head_not_mem _ '<' (by decide) _ (by assumption)
            | exact (safeCut_iff _ _).mpr (by decide)
    · by_cases hcfe : cf ≠ ""
      · have hdata : (sitemapEntry ilm today cf pr loc).data =
            ["  <url>\n".data, "    <loc>".data, (escapeXml loc).data, "</loc>\n".data,
             "    <changefreq>".data, cf.data, "</changefreq>\n".data,
             "    <priority>".data, (numText pr).data, "</priority>\n".data,
             "  </url>".data].flatten := by
          unfold sitemapEntry
          rw [if_neg hlm, if_pos hcfe]
          simp only [strData_append, List.flatten_cons, List.flatten_nil,
            List.append_assoc, List.append_nil]
        rw [hdata, countOccs_flatten]
        · simp only [List.map_cons, List.map_nil, List.sum_cons, List.sum_nil]
          rw [countOccs_eq_zero_of_head_not_mem "<url>".data '<' (by decide) _ hesc,
              countOccs_eq_zero_of_head_not_mem "<url>".data '<' (by decide) _ hcf,
              countOccs_eq_zero_of_head_not_mem "<url>".data '<' (by decide) _ hnum]
          decide
        · intro p hp
          simp only [List.mem_cons, List.not_mem_nil, or_false] at hp
          rcases hp with rfl | rfl | rfl | rfl | rfl | rfl | rfl | rfl | rfl | rfl | rfl
          all_goals first
            | exact safeCut_of_head_not_mem _ '<' (by decide) _ (by assumption)
            | exact (safeCut_iff _ _).mpr (by decide)
      · have hdata : (sitemapEntry ilm today cf pr loc).data =
            ["  <url>\n".data, "    <loc>".data, (escapeXml loc).data, "</loc>\n".data,
             "    <priority>".data, (numText pr).data, "</priority>\n".data,
             "  </url>".data].flatten := by
          unfold sitemapEntry
          rw [if_neg hlm, if_neg hcfe]
          simp only [strData_append, List.flatten_cons, List.flatten_nil,
            List.append_assoc, List.append_nil]
        rw [hdata, countOccs_flatten]
        · simp only [List.map_cons, List.map_nil, List.sum_cons, List.sum_nil]
          rw [countOccs_eq_zero_of_head_not_mem "<url>".data '<' (by decide) _ hesc,
              countOccs_eq_zero_of_head_not_mem "<url>".data '<' (by decide) _ hnum]
          decide
        · intro p hp
          simp only [List.mem_cons, List.not_mem_nil, or_false] at hp
          rcases hp with rfl | rfl | rfl | rfl | rfl | rfl | rfl | rfl
          all_goals first
            | exact safeCut_of_head_not_mem _ '<' (by decide) _ (by assumption)
            | exact (safeCut_iff _ _).mpr (by decide)
  · apply safeCut_of_suffix _ _ "  </url>".data
    · show "  </url>".data <:+ _
      unfold sitemapEntry
      rw [strData_append]
      exact List.suffix_append _ _
    · decide
    · exact (safeCut_iff _ _).mpr (by decide)

/-- With includeLastMod off, a rendered url entry contains no lastmod open
tag, and no occurrence can straddle its edges. -/
theorem countOccs_lastmod_entry (today cf : String) (pr : Rat) (loc : String)
    (hcf : '<' ∉ cf.data) :
    countOccs "<lastmod".data (sitemapEntry false today cf pr loc).data = 0 ∧
    SafeCut "<lastmod".data (sitemapEntry false today cf pr loc).data := by
  have hesc := escapeXml_no_lt loc
  have hnum := numText_no_lt pr
  have hlm : ¬ ((false = true) ∧ today ≠ "") := by simp
  constructor
  · by_cases hcfe : cf ≠ ""
    · have hdata : (sitemapEntry false today cf pr loc).data =
          ["  <url>\n".data, "    <loc>".data, (escapeXml loc).data, "</loc>\n".data,
           "    <changefreq>".data, cf.data, "</changefreq>\n".data,
           "    <priority>".data, (numText pr).data, "</priority>\n".data,
           "  </url>".data].flatten := by
        unfold sitemapEntry
        rw [if_neg hlm, if_pos hcfe]
        simp only [strData_append, List.flatten_cons, List.flatten_nil,
          List.append_assoc, List.append_nil]
      rw [hdata, countOccs_flatten]
      · simp only [List.map_cons, List.map_nil, List.sum_cons, List.sum_nil]
        rw [countOccs_eq_zero_of_head_not_mem "<lastmod".data '<' (by decide) _ hesc,
            countOccs_eq_zero_of_head_not_mem "<lastmod".data '<' (by decide) _ hcf,
            countOccs_eq_zero_of_head_not_mem "<lastmod".data '<' (by decide) _ hnum]
        decide
      · intro p hp
        simp only [List.mem_cons, List.not_mem_nil, or_false] at hp
        rcases hp with rfl | rfl | rfl | rfl | rfl | rfl | rfl | rfl | rfl | rfl | rfl
        all_goals first
          | exact safeCut_of_head_not_mem _ '<' (by decide) _ (by assumption)
          | exact (safeCut_iff _ _).mpr (by decide)
    · have hdata : (sitemapEntry false today cf pr loc).data =
          ["  <url>\n".data, "    <loc>".data, (escapeXml loc).data, "</loc>\n".data,
           "    <priority>".data, (numText pr).data, "</priority>\n".data,
           "  </url>".data].flatten := by
        unfold sitemapEntry
        rw [if_neg hlm, if_neg hcfe]
        simp only [strData_append, List.flatten_cons, List.flatten_nil,
          List.append_assoc, List.append_nil]
      rw [hdata, countOccs_flatten]
      · simp only [List.map_cons, List.map_nil, List.sum_cons, List.sum_nil]
        rw [countOccs_eq_zero_of_head_not_mem "<lastmod".data '<' (by decide) _ hesc,
            countOccs_eq_zero_of_head_not_mem "<lastmod".data '<' (by decide) _ hnum]
        decide
      · intro p hp
        simp only [List.mem_cons, List.not_mem_nil, or_false] at hp
        rcases hp with rfl | rfl | rfl | rfl | rfl | rfl | rfl | rfl
        all_goals first
          | exact safeCut_of_head_not_mem _ '<' (by decide) _ (by assumption)
          | exact (safeCut_iff _ _).mpr (by decide)
  · apply safeCut_of_suffix _ _ "  </url>".data
    · show "  </url>".data <:+ _
      unfold sitemapEntry
      rw [strData_append]
      exact List.suffix_append _ _
    · decide
    · exact (safeCut_iff _ _).mpr (by decide)

/-- String concatenation is associative. -/
theorem strAppend_assoc (a b c : String) : (a ++ b) ++ c = a ++ (b ++ c) := by
  cases a
  cases b
  cases c
  exact congrArg String.mk (List.append_assoc _ _ _)

/-- Folding the separator-join from a shifted accumulator factors the
accumulator out. -/
theorem joinSep_shift (sep : String) : ∀ (t : List String) (x y : String),
    t.foldl (fun a z => a ++ sep ++ z) (x ++ sep ++ y)
      = x ++ sep ++ t.foldl (fun a z => a ++ sep ++ z) y := by
  intro t
  induction t with
  | nil => intro x y; rfl
  | cons z t2 ih =>
    intro x y
    show t2.foldl _ (x ++ sep ++ y ++ sep ++ z) = _
    rw [strAppend_assoc (x ++ sep) y sep, strAppend_assoc (x ++ sep) (y ++ sep) z]
    exact ih x ((y ++ sep) ++ z)

/-- Unfolding equation of the separator-join on two or more elements. -/
theorem joinSep_cons_cons (sep x y : String) (t : List String) :
    joinSep sep (x :: y :: t) = x ++ sep ++ joinSep sep (y :: t) := by
  show t.foldl _ (x ++ sep ++ y) = _
  exact joinSep_shift sep t x y

/-- The joined entries followed by the closing tag contain one url open tag
per entry. -/
theorem countOccs_url_join (ilm : Bool) (today cf : String) (pr : Rat)
    (htoday : '<' ∉ today.data) (hcf : '<' ∉ cf.data) :
    ∀ urls : List String,
      countOccs "<url>".data
        ((joinSep "\n" (urls.map (sitemapEntry ilm today cf pr)) ++ "\n</urlset>")).data
        = urls.length := by
  intro urls
  induction urls with
  | nil =>
    show countOccs "<url>".data ("" ++ "\n</urlset>").data = 0
    decide
  | cons x t ih =>
    cases t with
    | nil =>
      show countOccs _ ((sitemapEntry ilm today cf pr x ++ "\n</urlset>")).data = 1
      rw [strData_append,
        countOccs_append _ _ _ (countOccs_url_entry ilm today cf pr x htoday hcf).2,
        (countOccs_url_entry ilm today cf pr x htoday hcf).1,
        show countOccs "<url>".data "\n</urlset>".data = 0 from by decide]
    | cons y t2 =>
      rw [List.map_cons, List.map_cons, joinSep_cons_cons,
        strAppend_assoc (sitemapEntry ilm today cf pr x ++ "\n") _ _,
        strAppend_assoc (sitemapEntry ilm today cf pr x) "\n" _,
        strData_append, strData_append,
        countOccs_append _ _ _ (countOccs_url_entry ilm today cf pr x htoday hcf).2,
        (countOccs_url_entry ilm today cf pr x htoday hcf).1,
        countOccs_append _ _ _ ((safeCut_iff _ _).mpr (by decide)),
        show countOccs "<url>".data "\n".data = 0 from by decide]
      rw [List.map_cons] at ih
      rw [strData_append] at ih
      rw [strData_append, ih]
      simp [List.length_cons]
      omega

/-- With includeLastMod off, the joined entries followed by the closing tag
contain no lastmod open tag. -/
theorem countOccs_lastmod_join (today cf : String) (pr : Rat)
    (hcf : '<' ∉ cf.data) :
    ∀ urls : List String,
      countOccs "<lastmod".data
        ((joinSep "\n" (urls.map (sitemapEntry false today cf pr)) ++ "\n</urlset>")).data
        = 0 := by
  intro urls
  induction urls with
  | nil =>
    show countOccs "<lastmod".data ("" ++ "\n</urlset>").data = 0
    decide
  | cons x t ih =>
    cases t with
    | nil =>
      show countOccs _ ((sitemapEntry false today cf pr x ++ "\n</urlset>")).data = 0
      rw [strData_append,
        countOccs_append _ _ _ (countOccs_lastmod_entry today cf pr x hcf).2,
        (countOccs_lastmod_entry today cf pr x hcf).1,
        show countOccs "<lastmod".data "\n</urlset>".data = 0 from by decide]
    | cons y t2 =>
      rw [List.map_cons, List.map_cons, joinSep_cons_cons,
        strAppend_assoc (sitemapEntry false today cf pr x ++ "\n") _ _,
        strAppend_assoc (sitemapEntry false today cf pr x) "\n" _,
        strData_append, strData_append,
        countOccs_append _ _ _ (countOccs_lastmod_entry today cf pr x hcf).2,
        (countOccs_lastmod_entry today cf pr x hcf).1,
        countOccs_append _ _ _ ((safeCut_iff _ _).mpr (by decide)),
        show countOccs "<lastmod".data "\n".data = 0 from by decide]
      rw [List.map_cons] at ih
      rw [strData_append] at ih
      rw [strData_append, ih]

/-- The rendered sitemap document contains exactly one url open tag per
input URL. -/
theorem countOccs_url_generateSitemapXML (urls : List String) (opts : XmlOptions)
    (today : String) (htoday : '<' ∉ today.data)
    (hcf : '<' ∉ (opts.changeFreq.getD "weekly").data) :
    countOccs "<url>".data (generateSitemapXML urls opts today).data = urls.length := by
  unfold generateSitemapXML
  have hjoin := countOccs_url_join (opts.includeLastMod.getD false) today
    (opts.changeFreq.getD "weekly") (opts.priority.getD halfPriority) htoday hcf urls
  rw [strData_append] at hjoin
  show countOccs "<url>".data
    ((xmlHeader ++ joinSep "\n" (urls.map (sitemapEntry (opts.includeLastMod.getD false)
      today (opts.changeFreq.getD "weekly") (opts.priority.getD halfPriority)))
      ++ "\n</urlset>")).data = urls.length
  rw [strAppend_assoc, strData_append, strData_append,
    countOccs_append _ _ _ ((safeCut_iff _ _).mpr (by decide)),
    show countOccs "<url>".data xmlHeader.data = 0 from by decide,
    hjoin]
  omega

/-- With includeLastMod off, the rendered sitemap document contains no
lastmod open tag at all. -/
theorem countOccs_lastmod_generateSitemapXML (urls : List String) (opts : XmlOptions)
    (today : String) (hlm : opts.includeLastMod = none)
    (hcf : '<' ∉ (opts.changeFreq.getD "weekly").data) :
    countOccs "<lastmod".data (generateSitemapXML urls opts today).data = 0 := by
  unfold generateSitemapXML
  rw [hlm]
  have hjoin := countOccs_lastmod_join today
    (opts.changeFreq.getD "weekly") (opts.priority.getD halfPriority) hcf urls
  rw [strData_append] at hjoin
  show countOccs "<lastmod".data
    ((xmlHeader ++ joinSep "\n" (urls.map (sitemapEntry false
      today (opts.changeFreq.getD "weekly") (opts.priority.getD halfPriority)))
      ++ "\n</urlset>")).data = 0
  rw [strAppend_assoc, strData_append, strData_append,
    countOccs_append _ _ _ ((safeCut_iff _ _).mpr (by decide)),
    show countOccs "<lastmod".data xmlHeader.data = 0 from by decide,
    hjoin]

/-- Inversion of request validation: the validated data is the request
itself (every optional field passes through the optional-wrapped defaults
unchanged) and the present optional fields passed their checks. -/
theorem validateSitemapRequest_inv {r d : SitemapRequest}
    (h : validateSitemapRequest r = some d) :
    d = r ∧ urlFieldOk r.url = true
      ∧ (match r.changeFreq with
         | none => true
         | some cf => changeFreqEnum.contains cf) = true
      ∧ (match r.priority with
         | none => true
         | some p => decide (0 ≤ p ∧ p ≤ 1)) = true := by
  unfold validateSitemapRequest at h
  split at h
  · rename_i hcond
    rw [Option.some.injEq] at h
    simp only [Bool.and_eq_true] at hcond
    exact ⟨h.symm, hcond.1.1, hcond.1.2, hcond.2⟩
  · exact absurd h (by simp)

/-- A validated changeFreq (or the weekly default) has no left angle
bracket. -/
theorem changeFreq_getD_no_lt (o : Option String)
    (hok : (match o with
            | none => true
            | some cf => changeFreqEnum.contains cf) = true) :
    '<' ∉ (o.getD "weekly").data := by
  cases o with
  | none => decide
  | some cf =>
    simp only [Option.getD_some]
    have hmem : cf ∈ changeFreqEnum := List.mem_of_elem_eq_true hok
    simp only [changeFreqEnum, List.mem_cons, List.not_mem_nil, or_false] at hmem
    rcases hmem with rfl | rfl | rfl | rfl | rfl | rfl | rfl <;> decide

/-- A serialized URL is never the empty string. -/
theorem urlToString_ne_empty (x : Url) : urlToString x ≠ "" := by
  intro h
  have hd := congrArg String.data h
  simp only [urlToString, strData_append] at hd
  have h1 := (List.append_eq_nil.mp hd).1
  have h2 := (List.append_eq_nil.mp h1).1
  have h3 := (List.append_eq_nil.mp h2).1
  have h4 := (List.append_eq_nil.mp h3).1
  have h5 := (List.append_eq_nil.mp (List.append_eq_nil.mp h4).1).2
  exact List.cons_ne_nil '/' ['/'] h5

/-- On states whose visited entries are normalizations, the truthiness
filter of the result array is the identity. -/
theorem visitedArray_eq_of_inv (st : CrawlState)
    (h : ∀ x ∈ st.visited, ∃ u, x = normalizeUrl u) :
    visitedArray st = st.visited := by
  unfold visitedArray
  apply List.filter_eq_self.mpr
  intro x hx
  obtain ⟨u, rfl⟩ := h x hx
  have hne := urlToString_ne_empty (normCore u)
  simp [normalizeUrl, hne]

/-- C2: a sitemap request that passes validation without setting
includeLastMod produces a sitemap document containing no lastmod element:
the schema's optional wrapper forwards the absent field as undefined (its
inner default never fires), the handler passes it through, and the
renderer's destructuring default false suppresses every lastmod line. -/
theorem sitemap_no_lastmod_when_unset (web : Url → FetchOutcome) (robots : List String)
    (today : String) (fuel : Nat) (r : SitemapRequest)
    (hr : r.includeLastMod = none) (xml : String) (stats : CrawlStats)
    (h : generateSitemapEndpoint web robots today fuel r = some (xml, stats)) :
    ¬ ("<lastmod".data <:+: xml.data) := by
  unfold generateSitemapEndpoint at h
  cases hv : validateSitemapRequest r with
  | none => rw [hv] at h; exact absurd h (by simp)
  | some d =>
    obtain ⟨hd, _, hcf, _⟩ := validateSitemapRequest_inv hv
    rw [hv] at h
    rw [hd] at h
    simp only [Option.some.injEq, Prod.mk.injEq] at h
    obtain ⟨hxml, _⟩ := h
    intro hinf
    have hcount := countOccs_lastmod_generateSitemapXML
      ((visitedArray (crawlWebsite web robots r.url 50 fuel)).take 50)
      ⟨r.changeFreq, r.priority, r.includeLastMod⟩ today hr
      (changeFreq_getD_no_lt r.changeFreq hcf)
    rw [← hxml] at hinf
    have hpos := countOccs_pos_of_infix "<lastmod".data (by decide) hinf
    rw [hcount] at hpos
    exact Nat.lt_irrefl 0 hpos

/-- C10: on every successful generate-sitemap response, the number of url
entries in the returned sitemap document equals the reported
stats.urlsInSitemap: the renderer emits exactly one entry per input URL,
the sitemap is built from the visited list — never longer than the
50-entry slice, so the slice is the whole list — and the reported count is
that list's length. -/
theorem endpoint_url_count (web : Url → FetchOutcome) (robots : List String)
    (today : String) (fuel : Nat) (r : SitemapRequest) (xml : String)
    (stats : CrawlStats) (htoday : '<' ∉ today.data)
    (h : generateSitemapEndpoint web robots today fuel r = some (xml, stats)) :
    countOccs "<url>".data xml.data = stats.urlsInSitemap := by
  unfold generateSitemapEndpoint at h
  cases hv : validateSitemapRequest r with
  | none => rw [hv] at h; exact absurd h (by simp)
  | some d =>
    obtain ⟨hd, _, hcf, _⟩ := validateSitemapRequest_inv hv
    rw [hv] at h
    rw [hd] at h
    simp only [Option.some.injEq, Prod.mk.injEq] at h
    obtain ⟨hxml, hstats⟩ := h
    have hinv := crawlWebsite_inv web robots r.url 50 fuel
    have htake : (visitedArray (crawlWebsite web robots r.url 50 fuel)).take 50
        = (crawlWebsite web robots r.url 50 fuel).visited := by
      rw [visitedArray_eq_of_inv _ hinv.2.2.2.2]
      exact List.take_of_length_le hinv.2.2.2.1
    rw [← hxml, ← hstats,
      countOccs_url_generateSitemapXML _ _ _ htoday
        (changeFreq_getD_no_lt r.changeFreq hcf),
      htake]
    rfl

/-- A concrete valid request: the example seed with every optional field
absent. -/
def egReq : SitemapRequest := ⟨egSeed, none, none, none, none⟩

set_option maxRecDepth 10000 in
/-- C2 witness: the concrete example run validates, answers, and its
document has no lastmod element. -/
theorem sitemap_no_lastmod_when_unset_witness :
    egReq.includeLastMod = none ∧
    generateSitemapEndpoint egWeb [] "2026-10-12" 5 egReq
      = some (generateSitemapXML ["https://example.com/", "https://example.com/a"]
          ⟨none, none, none⟩ "2026-10-12", ⟨2, 2⟩) ∧
    ¬ ("<lastmod".data <:+:
        (generateSitemapXML ["https://example.com/", "https://example.com/a"]
          ⟨none, none, none⟩ "2026-10-12").data) :=
  ⟨rfl, by decide,
   sitemap_no_lastmod_when_unset egWeb [] "2026-10-12" 5 egReq rfl
     (generateSitemapXML ["https://example.com/", "https://example.com/a"]
       ⟨none, none, none⟩ "2026-10-12")
     ⟨2, 2⟩ (by decide)⟩

set_option maxRecDepth 10000 in
/-- C10 witness: on the concrete example run the document's url-entry
count equals the reported urlsInSitemap. -/
theorem endpoint_url_count_witness :
    generateSitemapEndpoint egWeb [] "2026-10-12" 6 egReq
      = some (generateSitemapXML ["https://example.com/", "https://example.com/a"]
          ⟨none, none, none⟩ "2026-10-12", ⟨2, 2⟩) ∧
    countOccs "<url>".data
      (generateSitemapXML ["https://example.com/", "https://example.com/a"]
        ⟨none, none, none⟩ "2026-10-12").data
      = (2 : Nat) :=
  ⟨by decide,
   endpoint_url_count egWeb [] "2026-10-12" 6 egReq
     (generateSitemapXML ["https://example.com/", "https://example.com/a"]
       ⟨none, none, none⟩ "2026-10-12")
     ⟨2, 2⟩ (by decide) (by decide)⟩
